import Mathlib

/-!
# Verification of the trip-expense settlement engine

Shallow embedding of the settlement core of `app.py` (function
`resolve_expenses` and the `Payer` dataclass).  Money amounts are modelled
as exact rationals; Python's `round(x, p)` (round-half-to-even on the
scaled value) is modelled by `pyround`.  The mutable list of `Payer`
objects is modelled by explicit state passing: a `SettleState` carries the
current list of payers together with the transfer instructions emitted so
far (the Python code prints each instruction; we accumulate them).
-/

/-- Round-half-to-even of a rational to an integer, the idealisation of
Python's `round` builtin on exact values. -/
def rhe (y : ℚ) : ℤ :=
  let n := ⌊y⌋
  let f := y - n
  if f < 1/2 then n
  else if 1/2 < f then n + 1
  else if n % 2 = 0 then n else n + 1

/-- Python's `round(x, prec)` on exact rationals: round-half-to-even at
`prec` decimal digits. -/
def pyround (prec : ℕ) (x : ℚ) : ℚ :=
  (rhe (x * 10 ^ prec) : ℚ) / 10 ^ prec

/-- One monetary unit at the working precision: `10 ^ (-prec)`. -/
def unit (prec : ℕ) : ℚ := 1 / 10 ^ prec

/-- The `PRECISION` constant of `app.py`. -/
def PRECISION : ℕ := 2

/-- The `Payer` dataclass: `name`, `spent`, and the running `cashflow`
(positive = owes money, negative = is owed money). -/
structure Payer where
  name : String
  spent : ℚ
  cashflow : ℚ
deriving DecidableEq, Repr

/-- A transfer instruction `from amount -> to`, as printed by
`resolve_expenses` (field `from` of the spec is `fromName` here since
`from` is a Lean keyword). -/
structure Instr where
  fromName : String
  toName : String
  amount : ℚ
deriving DecidableEq, Repr

/-- `Payer.owes_money`: the rounded cashflow is strictly positive. -/
def Payer.owes_money (prec : ℕ) (p : Payer) : Prop :=
  0 < pyround prec p.cashflow

/-- `Payer.is_owed_money`: the rounded cashflow is strictly negative. -/
def Payer.is_owed_money (prec : ℕ) (p : Payer) : Prop :=
  pyround prec p.cashflow < 0

instance (prec : ℕ) (p : Payer) : Decidable (p.owes_money prec) := by
  unfold Payer.owes_money; infer_instance

instance (prec : ℕ) (p : Payer) : Decidable (p.is_owed_money prec) := by
  unfold Payer.is_owed_money; infer_instance

/-- Placeholder payer used by out-of-range list reads (never hit by the
algorithm, whose indices all lie in range). -/
def dfltPayer : Payer := ⟨"", 0, 0⟩

/-- State of the settlement loop: the (mutated-in-place) payer list and
the instructions emitted so far. -/
structure SettleState where
  payers : List Payer
  instrs : List Instr
deriving DecidableEq, Repr

/-- Current cashflow of the payer at index `k`. -/
def SettleState.cash (s : SettleState) (k : ℕ) : ℚ :=
  (s.payers.getD k dfltPayer).cashflow

/-- The rounded amount exchanged for the pair `(i, j)`:
`round(min(abs(payer.cashflow), abs(recipient.cashflow)), prec)`. -/
def amt (prec : ℕ) (i j : ℕ) (s : SettleState) : ℚ :=
  pyround prec
    (min |(s.payers.getD i dfltPayer).cashflow| |(s.payers.getD j dfltPayer).cashflow|)

/-- The effect of one executed exchange for the pair `(i, j)`: print the
instruction and update `payer.cashflow -= amount` then
`recipient.cashflow += amount` (the recipient is re-read after the first
write, exactly as Python's attribute updates behave when `i = j`). -/
def fire (prec : ℕ) (i j : ℕ) (s : SettleState) : SettleState :=
  let d := s.payers.getD i dfltPayer
  let c := s.payers.getD j dfltPayer
  let amount := amt prec i j s
  let ps1 := s.payers.set i { d with cashflow := d.cashflow - amount }
  let c1 := ps1.getD j dfltPayer
  let ps2 := ps1.set j { c1 with cashflow := c1.cashflow + amount }
  { payers := ps2, instrs := s.instrs ++ [⟨d.name, c.name, amount⟩] }

/-- One iteration of the inner loop body of `resolve_expenses` for outer
index `i` (the current `payer`) and inner index `j` (the candidate
`recipient`): if the recipient is owed money and the rounded amount is
nonzero, perform the exchange; otherwise the iteration is a no-op (the
lazy `filter` skip and the `amount == 0` `continue`). -/
def step (prec : ℕ) (i j : ℕ) (s : SettleState) : SettleState :=
  if (s.payers.getD j dfltPayer).is_owed_money prec ∧ amt prec i j s ≠ 0 then
    fire prec i j s
  else s

/-- The inner loop of `resolve_expenses`: visit the candidate recipients
at the indices in `js` in order. -/
def innerLoop (prec i : ℕ) (js : List ℕ) (s : SettleState) : SettleState :=
  js.foldl (fun t j => step prec i j t) s

/-- One iteration of the outer loop: if the payer at index `i` owes money
(checked on the current state, as Python's lazy `filter` does), run the
inner loop over all indices in reverse order (`reversed(payers)`). -/
def outerStep (prec : ℕ) (s : SettleState) (i : ℕ) : SettleState :=
  if (s.payers.getD i dfltPayer).owes_money prec then
    innerLoop prec i (List.range s.payers.length).reverse s
  else s

/-- The outer loop of `resolve_expenses` over the outer indices `is`. -/
def outerLoop (prec : ℕ) (is : List ℕ) (s : SettleState) : SettleState :=
  is.foldl (outerStep prec) s

/-- The comparison used by `payers.sort(key=lambda p: -p.cashflow)`:
`a` may come before `b` when `-a.cashflow ≤ -b.cashflow`, i.e. cashflow
descending. -/
def byDesc (a b : Payer) : Prop := b.cashflow ≤ a.cashflow

instance : DecidableRel byDesc := by
  unfold byDesc; infer_instance

instance : IsTotal Payer byDesc :=
  ⟨fun a b => le_total b.cashflow a.cashflow⟩

instance : IsTrans Payer byDesc :=
  ⟨fun _ _ _ h h' => le_trans h' h⟩

/-- `payers.sort(key=lambda p: -p.cashflow)`: stable sort by cashflow
descending.  Python's `list.sort` is a stable sort; a stable sort by a
total preorder has a unique output, so it is modelled by stable insertion
sort. -/
def sortPayers (l : List Payer) : List Payer :=
  l.insertionSort byDesc

/-- The settlement core of `resolve_expenses`: sort the payers by
cashflow descending (stably), then run the greedy double loop; return the
emitted instructions and the final payer list. -/
def resolve_expenses (prec : ℕ) (l : List Payer) : List Instr × List Payer :=
  let s0 : SettleState := ⟨sortPayers l, []⟩
  let s1 := outerLoop prec (List.range (sortPayers l).length) s0
  (s1.instrs, s1.payers)

/-- Sum of all cashflows of a payer list. -/
def sumCash (l : List Payer) : ℚ := (l.map Payer.cashflow).sum

/-- Total amount sent by the participant named `nm` in an instruction
list. -/
def sentSum (ins : List Instr) (nm : String) : ℚ :=
  ((ins.filter (fun t => t.fromName = nm)).map Instr.amount).sum

/-- Total amount received by the participant named `nm` in an instruction
list. -/
def recvSum (ins : List Instr) (nm : String) : ℚ :=
  ((ins.filter (fun t => t.toName = nm)).map Instr.amount).sum

/-- `x` is an exact multiple of the monetary unit `10 ^ (-prec)`. -/
def isMul (prec : ℕ) (x : ℚ) : Prop := ∃ k : ℤ, x = k / 10 ^ prec

/-! ### Properties of round-half-to-even -/

theorem rhe_intCast (k : ℤ) : rhe (k : ℚ) = k := by
  simp [rhe, Int.floor_intCast]

theorem rhe_le (y : ℚ) : (rhe y : ℚ) ≤ y + 1/2 := by
  have h1 : ((⌊y⌋ : ℤ) : ℚ) ≤ y := Int.floor_le y
  have h2 : y < (⌊y⌋ : ℤ) + 1 := Int.lt_floor_add_one y
  simp only [rhe]
  split_ifs <;> push_cast <;> linarith

theorem rhe_ge (y : ℚ) : y - 1/2 ≤ (rhe y : ℚ) := by
  have h1 : ((⌊y⌋ : ℤ) : ℚ) ≤ y := Int.floor_le y
  have h2 : y < (⌊y⌋ : ℤ) + 1 := Int.lt_floor_add_one y
  simp only [rhe]
  split_ifs <;> push_cast <;> linarith

theorem rhe_pos_iff (y : ℚ) : 0 < rhe y ↔ 1/2 < y := by
  have h1 : ((⌊y⌋ : ℤ) : ℚ) ≤ y := Int.floor_le y
  have h2 : y < (⌊y⌋ : ℤ) + 1 := Int.lt_floor_add_one y
  simp only [rhe]
  split_ifs with hf1 hf2 hpar
  · constructor
    · intro h
      have h' : (1 : ℤ) ≤ ⌊y⌋ := by omega
      have : (1 : ℚ) ≤ (⌊y⌋ : ℚ) := by exact_mod_cast h'
      linarith
    · intro h
      have : (0 : ℚ) < (⌊y⌋ : ℚ) := by linarith
      exact_mod_cast this
  · constructor
    · intro h
      have h' : (0 : ℤ) ≤ ⌊y⌋ := by omega
      have : (0 : ℚ) ≤ (⌊y⌋ : ℚ) := by exact_mod_cast h'
      linarith
    · intro h
      have : (-1 : ℚ) < (⌊y⌋ : ℚ) := by linarith
      have : (-1 : ℤ) < ⌊y⌋ := by exact_mod_cast this
      omega
  · have heq : y - (⌊y⌋ : ℚ) = 1/2 := le_antisymm (not_lt.mp hf2) (not_lt.mp hf1)
    constructor
    · intro h
      have h' : (1 : ℤ) ≤ ⌊y⌋ := by omega
      have : (1 : ℚ) ≤ (⌊y⌋ : ℚ) := by exact_mod_cast h'
      linarith
    · intro h
      have : (0 : ℚ) < (⌊y⌋ : ℚ) := by linarith
      exact_mod_cast this
  · have heq : y - (⌊y⌋ : ℚ) = 1/2 := le_antisymm (not_lt.mp hf2) (not_lt.mp hf1)
    constructor
    · intro h
      have h0 : (0 : ℤ) ≤ ⌊y⌋ := by omega
      have h1' : (1 : ℤ) ≤ ⌊y⌋ := by omega
      have : (1 : ℚ) ≤ (⌊y⌋ : ℚ) := by exact_mod_cast h1'
      linarith
    · intro h
      have : (-1 : ℚ) < (⌊y⌋ : ℚ) := by linarith
      have : (-1 : ℤ) < ⌊y⌋ := by exact_mod_cast this
      omega

theorem rhe_neg_iff (y : ℚ) : rhe y < 0 ↔ y < -(1/2) := by
  have h1 : ((⌊y⌋ : ℤ) : ℚ) ≤ y := Int.floor_le y
  have h2 : y < (⌊y⌋ : ℤ) + 1 := Int.lt_floor_add_one y
  simp only [rhe]
  split_ifs with hf1 hf2 hpar
  · constructor
    · intro h
      have h' : ⌊y⌋ ≤ -1 := by omega
      have : (⌊y⌋ : ℚ) ≤ -1 := by exact_mod_cast h'
      linarith
    · intro h
      have : (⌊y⌋ : ℚ) < 0 := by linarith
      exact_mod_cast this
  · constructor
    · intro h
      have h' : ⌊y⌋ ≤ -2 := by omega
      have : (⌊y⌋ : ℚ) ≤ -2 := by exact_mod_cast h'
      linarith
    · intro h
      have : (⌊y⌋ : ℚ) < -1 := by linarith
      have : ⌊y⌋ < -1 := by exact_mod_cast this
      omega
  · have heq : y - (⌊y⌋ : ℚ) = 1/2 := le_antisymm (not_lt.mp hf2) (not_lt.mp hf1)
    constructor
    · intro h
      have h0 : ⌊y⌋ ≤ -1 := by omega
      have h1' : ⌊y⌋ ≤ -2 := by omega
      have : (⌊y⌋ : ℚ) ≤ -2 := by exact_mod_cast h1'
      linarith
    · intro h
      have : (⌊y⌋ : ℚ) < -1 := by linarith
      have : ⌊y⌋ < -1 := by exact_mod_cast this
      omega
  · have heq : y - (⌊y⌋ : ℚ) = 1/2 := le_antisymm (not_lt.mp hf2) (not_lt.mp hf1)
    constructor
    · intro h
      have h' : ⌊y⌋ ≤ -2 := by omega
      have : (⌊y⌋ : ℚ) ≤ -2 := by exact_mod_cast h'
      linarith
    · intro h
      have : (⌊y⌋ : ℚ) < -1 := by linarith
      have : ⌊y⌋ < -1 := by exact_mod_cast this
      omega

theorem rhe_eq_zero_iff (y : ℚ) : rhe y = 0 ↔ -(1/2) ≤ y ∧ y ≤ 1/2 := by
  have hp := rhe_pos_iff y
  have hn := rhe_neg_iff y
  constructor
  · intro h
    refine ⟨not_lt.mp fun h' => ?_, not_lt.mp fun h' => ?_⟩
    · have := hn.mpr h'
      omega
    · have := hp.mpr h'
      omega
  · intro hy
    have ha : ¬ 0 < rhe y := fun h => absurd (hp.mp h) (not_lt.mpr hy.2)
    have hb : ¬ rhe y < 0 := fun h => absurd (hn.mp h) (not_lt.mpr hy.1)
    omega

/-! ### Properties of `pyround` -/

theorem pow10_pos (prec : ℕ) : (0 : ℚ) < 10 ^ prec := by positivity

theorem unit_pos (prec : ℕ) : 0 < unit prec := by
  unfold unit
  positivity

theorem pyround_pos_iff (prec : ℕ) (x : ℚ) :
    0 < pyround prec x ↔ unit prec / 2 < x := by
  have hp := pow10_pos prec
  unfold pyround unit
  rw [lt_div_iff hp, zero_mul,
    show (1 : ℚ)/10^prec/2 = (1/2)/10^prec from by ring, div_lt_iff hp]
  exact_mod_cast rhe_pos_iff (x * 10 ^ prec)

theorem pyround_neg_iff (prec : ℕ) (x : ℚ) :
    pyround prec x < 0 ↔ x < -(unit prec / 2) := by
  have hp := pow10_pos prec
  unfold pyround unit
  rw [div_lt_iff hp, zero_mul,
    show -((1 : ℚ)/10^prec/2) = (-(1/2))/10^prec from by ring, lt_div_iff hp]
  exact_mod_cast rhe_neg_iff (x * 10 ^ prec)

theorem pyround_eq_zero_iff (prec : ℕ) (x : ℚ) :
    pyround prec x = 0 ↔ -(unit prec / 2) ≤ x ∧ x ≤ unit prec / 2 := by
  have hp := pow10_pos prec
  unfold pyround unit
  rw [div_eq_zero_iff]
  have h10 : (10 : ℚ) ^ prec ≠ 0 := ne_of_gt hp
  rw [show -((1 : ℚ)/10^prec/2) = (-(1/2))/10^prec from by ring,
    show (1 : ℚ)/10^prec/2 = (1/2)/10^prec from by ring,
    div_le_iff hp, le_div_iff hp]
  constructor
  · intro h
    rcases h with h | h
    · have h0 : rhe (x * 10 ^ prec) = 0 := by exact_mod_cast h
      have := (rhe_eq_zero_iff (x * 10 ^ prec)).mp h0
      exact ⟨this.1, this.2⟩
    · exact absurd h h10
  · intro h
    left
    have h0 : rhe (x * 10 ^ prec) = 0 := (rhe_eq_zero_iff (x * 10 ^ prec)).mpr h
    exact_mod_cast h0

theorem pyround_le (prec : ℕ) (x : ℚ) : pyround prec x ≤ x + unit prec / 2 := by
  have hp := pow10_pos prec
  have h := rhe_le (x * 10 ^ prec)
  calc pyround prec x = (rhe (x * 10 ^ prec) : ℚ) / 10 ^ prec := rfl
    _ ≤ (x * 10 ^ prec + 1/2) / 10 ^ prec := by gcongr
    _ = x + unit prec / 2 := by
        unfold unit
        field_simp
        ring

theorem pyround_ge (prec : ℕ) (x : ℚ) : x - unit prec / 2 ≤ pyround prec x := by
  have hp := pow10_pos prec
  have h := rhe_ge (x * 10 ^ prec)
  calc x - unit prec / 2 = (x * 10 ^ prec - 1/2) / 10 ^ prec := by
        unfold unit
        field_simp
        ring
    _ ≤ (rhe (x * 10 ^ prec) : ℚ) / 10 ^ prec := by gcongr
    _ = pyround prec x := rfl

theorem pyround_nonneg (prec : ℕ) (x : ℚ) (hx : 0 ≤ x) : 0 ≤ pyround prec x := by
  by_contra h
  push_neg at h
  have h1 := (pyround_neg_iff prec x).mp h
  have h2 := unit_pos prec
  linarith

/-! ### Exact multiples of the monetary unit -/

theorem isMul_zero (prec : ℕ) : isMul prec 0 := ⟨0, by simp⟩

theorem isMul_add (prec : ℕ) {x y : ℚ} (hx : isMul prec x) (hy : isMul prec y) :
    isMul prec (x + y) := by
  obtain ⟨a, ha⟩ := hx
  obtain ⟨b, hb⟩ := hy
  exact ⟨a + b, by rw [ha, hb]; push_cast; ring⟩

theorem isMul_neg (prec : ℕ) {x : ℚ} (hx : isMul prec x) : isMul prec (-x) := by
  obtain ⟨a, ha⟩ := hx
  exact ⟨-a, by rw [ha]; push_cast; ring⟩

theorem isMul_sub (prec : ℕ) {x y : ℚ} (hx : isMul prec x) (hy : isMul prec y) :
    isMul prec (x - y) := by
  obtain ⟨a, ha⟩ := hx
  obtain ⟨b, hb⟩ := hy
  exact ⟨a - b, by rw [ha, hb]; push_cast; ring⟩

theorem isMul_abs (prec : ℕ) {x : ℚ} (hx : isMul prec x) : isMul prec |x| := by
  obtain ⟨a, ha⟩ := hx
  refine ⟨|a|, ?_⟩
  rw [ha, abs_div, abs_of_pos (pow10_pos prec)]
  push_cast
  rfl

theorem isMul_min (prec : ℕ) {x y : ℚ} (hx : isMul prec x) (hy : isMul prec y) :
    isMul prec (min x y) := by
  obtain ⟨a, ha⟩ := hx
  obtain ⟨b, hb⟩ := hy
  refine ⟨min a b, ?_⟩
  rw [ha, hb, div_eq_mul_inv, div_eq_mul_inv, div_eq_mul_inv, ← min_mul_of_nonneg]
  · push_cast
    rfl
  · positivity

theorem isMul_pyround (prec : ℕ) (x : ℚ) : isMul prec (pyround prec x) :=
  ⟨rhe (x * 10 ^ prec), rfl⟩

theorem pyround_eq_self (prec : ℕ) {x : ℚ} (hx : isMul prec x) :
    pyround prec x = x := by
  obtain ⟨a, ha⟩ := hx
  have hp := pow10_pos prec
  have hxa : x * 10 ^ prec = (a : ℚ) := by
    rw [ha]
    field_simp
  unfold pyround
  rw [hxa, rhe_intCast, ha]

/-! ### List helpers -/

theorem getD_set_self {α : Type} (l : List α) {i : ℕ} (h : i < l.length) (v d : α) :
    (l.set i v).getD i d = v := by
  rw [List.getD_eq_getElem?_getD, List.getElem?_set]
  simp [h]

theorem getD_set_ne {α : Type} (l : List α) {i j : ℕ} (h : i ≠ j) (v d : α) :
    (l.set i v).getD j d = l.getD j d := by
  rw [List.getD_eq_getElem?_getD, List.getElem?_set, if_neg h,
    ← List.getD_eq_getElem?_getD]

theorem set_getD_self {α : Type} (l : List α) (i : ℕ) (d : α) :
    l.set i (l.getD i d) = l := by
  induction l generalizing i with
  | nil => rfl
  | cons a t ih =>
    cases i with
    | zero => simp
    | succ n =>
      show a :: t.set n (t.getD n d) = a :: t
      rw [ih]

theorem getD_mem {α : Type} (l : List α) {i : ℕ} (h : i < l.length) (d : α) :
    l.getD i d ∈ l := by
  induction l generalizing i with
  | nil => simp at h
  | cons a t ih =>
    cases i with
    | zero => simp
    | succ n =>
      simp only [List.getD_cons_succ]
      exact List.mem_cons_of_mem a (ih (by simpa using h))

@[simp]
theorem sumCash_nil : sumCash [] = 0 := rfl

@[simp]
theorem sumCash_cons (p : Payer) (l : List Payer) :
    sumCash (p :: l) = p.cashflow + sumCash l := by
  simp [sumCash]

theorem sumCash_set (l : List Payer) {i : ℕ} (h : i < l.length) (v : Payer) :
    sumCash (l.set i v) =
      sumCash l - (l.getD i dfltPayer).cashflow + v.cashflow := by
  induction l generalizing i with
  | nil => simp at h
  | cons a t ih =>
    cases i with
    | zero => simp [List.set]; ring
    | succ n =>
      have hn : n < t.length := by simpa using h
      simp only [List.set, sumCash_cons, List.getD_cons_succ, ih hn]
      ring

/-- The settlement loop never changes a payer's `name` or `spent`; this
projection is what it preserves. -/
def proj (p : Payer) : String × ℚ := (p.name, p.spent)

theorem map_proj_set (l : List Payer) (i : ℕ) (c : ℚ) :
    (l.set i { l.getD i dfltPayer with cashflow := c }).map proj = l.map proj := by
  rw [List.map_set]
  have h1 : proj { l.getD i dfltPayer with cashflow := c } =
      (l.map proj).getD i (proj dfltPayer) := by
    rw [List.getD_map]
    rfl
  rw [h1, set_getD_self]

/-! ### Properties of `fire` and `step` -/

theorem fire_length (prec i j : ℕ) (s : SettleState) :
    (fire prec i j s).payers.length = s.payers.length := by
  simp [fire]

theorem fire_instrs (prec i j : ℕ) (s : SettleState) :
    (fire prec i j s).instrs = s.instrs ++
      [⟨(s.payers.getD i dfltPayer).name, (s.payers.getD j dfltPayer).name,
        amt prec i j s⟩] := rfl

theorem fire_cash_i (prec : ℕ) {i j : ℕ} (s : SettleState) (hij : i ≠ j)
    (hi : i < s.payers.length) :
    (fire prec i j s).cash i = s.cash i - amt prec i j s := by
  unfold fire SettleState.cash
  simp only
  rw [getD_set_ne _ (Ne.symm hij), getD_set_self _ hi]

theorem fire_cash_j (prec : ℕ) {i j : ℕ} (s : SettleState) (hij : i ≠ j)
    (hj : j < s.payers.length) :
    (fire prec i j s).cash j = s.cash j + amt prec i j s := by
  unfold fire SettleState.cash
  simp only
  rw [getD_set_self _ (by simpa using hj), getD_set_ne _ hij]

theorem fire_cash_self (prec : ℕ) {i : ℕ} (s : SettleState) :
    (fire prec i i s).cash i = s.cash i := by
  unfold fire SettleState.cash
  simp only
  by_cases hi : i < s.payers.length
  · rw [getD_set_self _ (by simpa using hi), getD_set_self _ hi]
    ring
  · have hlen : s.payers.length ≤ i := by omega
    rw [List.set_eq_of_length_le hlen, List.set_eq_of_length_le hlen]

theorem fire_cash_other (prec : ℕ) {i j k : ℕ} (s : SettleState) (hki : k ≠ i)
    (hkj : k ≠ j) :
    (fire prec i j s).cash k = s.cash k := by
  unfold fire SettleState.cash
  simp only
  rw [getD_set_ne _ (Ne.symm hkj), getD_set_ne _ (Ne.symm hki)]

theorem fire_map_proj (prec i j : ℕ) (s : SettleState) :
    (fire prec i j s).payers.map proj = s.payers.map proj := by
  unfold fire
  simp only
  rw [map_proj_set, map_proj_set]

theorem fire_sum (prec : ℕ) {i j : ℕ} (s : SettleState) (hi : i < s.payers.length)
    (hj : j < s.payers.length) :
    sumCash (fire prec i j s).payers = sumCash s.payers := by
  unfold fire
  simp only
  rw [sumCash_set _ (by simpa using hj), sumCash_set _ hi]
  ring

theorem step_cases (prec i j : ℕ) (s : SettleState) :
    step prec i j s = s ∨
    ((s.payers.getD j dfltPayer).is_owed_money prec ∧ amt prec i j s ≠ 0 ∧
      step prec i j s = fire prec i j s) := by
  unfold step
  split_ifs with h
  · exact Or.inr ⟨h.1, h.2, rfl⟩
  · exact Or.inl rfl

theorem step_length (prec i j : ℕ) (s : SettleState) :
    (step prec i j s).payers.length = s.payers.length := by
  unfold step
  split_ifs
  · exact fire_length prec i j s
  · rfl

theorem step_map_proj (prec i j : ℕ) (s : SettleState) :
    (step prec i j s).payers.map proj = s.payers.map proj := by
  unfold step
  split_ifs
  · exact fire_map_proj prec i j s
  · rfl

theorem step_sum (prec : ℕ) {i j : ℕ} (s : SettleState) (hi : i < s.payers.length)
    (hj : j < s.payers.length) :
    sumCash (step prec i j s).payers = sumCash s.payers := by
  unfold step
  split_ifs
  · exact fire_sum prec s hi hj
  · rfl

/-! ### The exact-multiples invariant -/

/-- Every cashflow in the state is an exact multiple of the monetary
unit. -/
def MulState (prec : ℕ) (s : SettleState) : Prop :=
  ∀ p ∈ s.payers, isMul prec p.cashflow

theorem isMul_getD (prec : ℕ) (l : List Payer)
    (hl : ∀ p ∈ l, isMul prec p.cashflow) (j : ℕ) :
    isMul prec (l.getD j dfltPayer).cashflow := by
  by_cases hj : j < l.length
  · exact hl _ (getD_mem _ hj _)
  · rw [List.getD_eq_getElem?_getD, List.getElem?_eq_none (by omega)]
    exact isMul_zero prec

theorem cash_isMul {prec : ℕ} {s : SettleState} (hm : MulState prec s) (k : ℕ) :
    isMul prec (s.cash k) :=
  isMul_getD prec s.payers hm k

theorem forall_mem_set {α : Type} {P : α → Prop} {l : List α} {i : ℕ} {v : α}
    (h : ∀ p ∈ l, P p) (hv : P v) : ∀ p ∈ l.set i v, P p :=
  fun p hp => (List.mem_or_eq_of_mem_set hp).elim (h p) (fun he => he ▸ hv)

theorem amt_nonneg (prec i j : ℕ) (s : SettleState) : 0 ≤ amt prec i j s :=
  pyround_nonneg _ _ (le_min (abs_nonneg _) (abs_nonneg _))

theorem amt_isMul (prec i j : ℕ) (s : SettleState) : isMul prec (amt prec i j s) :=
  isMul_pyround prec _

theorem amt_eq {prec : ℕ} (i j : ℕ) {s : SettleState} (hm : MulState prec s) :
    amt prec i j s = min |s.cash i| |s.cash j| :=
  pyround_eq_self prec
    (isMul_min prec (isMul_abs prec (cash_isMul hm i)) (isMul_abs prec (cash_isMul hm j)))

theorem owed_iff_neg {prec : ℕ} {s : SettleState} (hm : MulState prec s) (j : ℕ) :
    (s.payers.getD j dfltPayer).is_owed_money prec ↔ s.cash j < 0 := by
  unfold Payer.is_owed_money
  show pyround prec (s.cash j) < 0 ↔ s.cash j < 0
  rw [pyround_eq_self prec (cash_isMul hm j)]

theorem owes_iff_pos {prec : ℕ} {s : SettleState} (hm : MulState prec s) (i : ℕ) :
    (s.payers.getD i dfltPayer).owes_money prec ↔ 0 < s.cash i := by
  unfold Payer.owes_money
  show 0 < pyround prec (s.cash i) ↔ 0 < s.cash i
  rw [pyround_eq_self prec (cash_isMul hm i)]

theorem fire_MulState (prec i j : ℕ) (s : SettleState) (hm : MulState prec s) :
    MulState prec (fire prec i j s) := by
  have hd1 : isMul prec
      ((s.payers.getD i dfltPayer).cashflow - amt prec i j s) :=
    isMul_sub prec (isMul_getD prec s.payers hm i) (amt_isMul prec i j s)
  have hps1 : ∀ q ∈ s.payers.set i
      { s.payers.getD i dfltPayer with
        cashflow := (s.payers.getD i dfltPayer).cashflow - amt prec i j s },
      isMul prec q.cashflow := forall_mem_set hm hd1
  intro p hp
  unfold fire at hp
  simp only at hp
  exact forall_mem_set hps1
    (isMul_add prec (isMul_getD prec _ hps1 j) (amt_isMul prec i j s)) p hp

theorem step_MulState (prec i j : ℕ) (s : SettleState) (hm : MulState prec s) :
    MulState prec (step prec i j s) := by
  unfold step
  split_ifs
  · exact fire_MulState prec i j s hm
  · exact hm

theorem step_nonpos (prec : ℕ) {i j : ℕ} (s : SettleState) (hm : MulState prec s)
    (hi : i < s.payers.length) (hj : j < s.payers.length) (k : ℕ)
    (hk : s.cash k ≤ 0) : (step prec i j s).cash k ≤ 0 := by
  rcases step_cases prec i j s with h | ⟨h1, _, h3⟩
  · rw [h]
    exact hk
  · rw [h3]
    by_cases hki : k = i
    · subst hki
      by_cases hkj : k = j
      · subst hkj
        rw [fire_cash_self]
        exact hk
      · rw [fire_cash_i _ s hkj hi]
        have ha := amt_nonneg prec k j s
        linarith
    · by_cases hkj : k = j
      · subst hkj
        have hij : i ≠ k := fun he => hki he.symm
        rw [fire_cash_j _ s hij hj]
        have hcj : s.cash k < 0 := (owed_iff_neg hm k).mp h1
        have hle : amt prec i k s ≤ -(s.cash k) := by
          rw [amt_eq i k hm]
          calc min |s.cash i| |s.cash k| ≤ |s.cash k| := min_le_right _ _
            _ = -(s.cash k) := abs_of_neg hcj
        linarith
      · rw [fire_cash_other _ s hki hkj]
        exact hk

theorem step_nonneg_pres (prec : ℕ) {i j : ℕ} (s : SettleState)
    (hm : MulState prec s) (hi : i < s.payers.length) (hj : j < s.payers.length)
    (k : ℕ) (hk : 0 ≤ s.cash k) : 0 ≤ (step prec i j s).cash k := by
  rcases step_cases prec i j s with h | ⟨h1, _, h3⟩
  · rw [h]
    exact hk
  · rw [h3]
    by_cases hki : k = i
    · subst hki
      by_cases hkj : k = j
      · subst hkj
        rw [fire_cash_self]
        exact hk
      · rw [fire_cash_i _ s hkj hi]
        have hle : amt prec k j s ≤ s.cash k := by
          rw [amt_eq k j hm]
          calc min |s.cash k| |s.cash j| ≤ |s.cash k| := min_le_left _ _
            _ = s.cash k := abs_of_nonneg hk
        linarith
    · by_cases hkj : k = j
      · subst hkj
        have hcj : s.cash k < 0 := (owed_iff_neg hm k).mp h1
        linarith
      · rw [fire_cash_other _ s hki hkj]
        exact hk

/-! ### Inner loop invariants -/

theorem innerLoop_nil (prec i : ℕ) (s : SettleState) :
    innerLoop prec i [] s = s := rfl

theorem innerLoop_cons (prec i j : ℕ) (js : List ℕ) (s : SettleState) :
    innerLoop prec i (j :: js) s = innerLoop prec i js (step prec i j s) := rfl

theorem innerLoop_length (prec i : ℕ) (js : List ℕ) (s : SettleState) :
    (innerLoop prec i js s).payers.length = s.payers.length := by
  induction js generalizing s with
  | nil => rfl
  | cons j rest ih =>
    rw [innerLoop_cons, ih, step_length]

theorem innerLoop_MulState (prec i : ℕ) (js : List ℕ) (s : SettleState)
    (hm : MulState prec s) : MulState prec (innerLoop prec i js s) := by
  induction js generalizing s with
  | nil => exact hm
  | cons j rest ih =>
    rw [innerLoop_cons]
    exact ih _ (step_MulState prec i j s hm)

theorem innerLoop_map_proj (prec i : ℕ) (js : List ℕ) (s : SettleState) :
    (innerLoop prec i js s).payers.map proj = s.payers.map proj := by
  induction js generalizing s with
  | nil => rfl
  | cons j rest ih =>
    rw [innerLoop_cons, ih, step_map_proj]

theorem innerLoop_sum (prec : ℕ) {i : ℕ} (js : List ℕ) (s : SettleState)
    (hi : i < s.payers.length) (hjs : ∀ j ∈ js, j < s.payers.length) :
    sumCash (innerLoop prec i js s).payers = sumCash s.payers := by
  induction js generalizing s with
  | nil => rfl
  | cons j rest ih =>
    rw [innerLoop_cons, ih _ (by rw [step_length]; exact hi)
      (fun j' hj' => by rw [step_length]; exact hjs j' (List.mem_cons_of_mem j hj')),
      step_sum prec s hi (hjs j (List.mem_cons_self j rest))]

theorem innerLoop_nonpos_pres (prec : ℕ) {i : ℕ} (js : List ℕ) (s : SettleState)
    (hm : MulState prec s) (hi : i < s.payers.length)
    (hjs : ∀ j ∈ js, j < s.payers.length) (k : ℕ) (hk : s.cash k ≤ 0) :
    (innerLoop prec i js s).cash k ≤ 0 := by
  induction js generalizing s with
  | nil => exact hk
  | cons j rest ih =>
    rw [innerLoop_cons]
    exact ih _ (step_MulState prec i j s hm) (by rw [step_length]; exact hi)
      (fun j' hj' => by rw [step_length]; exact hjs j' (List.mem_cons_of_mem j hj'))
      (step_nonpos prec s hm hi (hjs j (List.mem_cons_self j rest)) k hk)

theorem innerLoop_nonneg_pres (prec : ℕ) {i : ℕ} (js : List ℕ) (s : SettleState)
    (hm : MulState prec s) (hi : i < s.payers.length)
    (hjs : ∀ j ∈ js, j < s.payers.length) (k : ℕ) (hk : 0 ≤ s.cash k) :
    0 ≤ (innerLoop prec i js s).cash k := by
  induction js generalizing s with
  | nil => exact hk
  | cons j rest ih =>
    rw [innerLoop_cons]
    exact ih _ (step_MulState prec i j s hm) (by rw [step_length]; exact hi)
      (fun j' hj' => by rw [step_length]; exact hjs j' (List.mem_cons_of_mem j hj'))
      (step_nonneg_pres prec s hm hi (hjs j (List.mem_cons_self j rest)) k hk)

theorem innerLoop_zero_pres (prec : ℕ) {i : ℕ} (js : List ℕ) (s : SettleState)
    (hm : MulState prec s) (hi : i < s.payers.length)
    (hjs : ∀ j ∈ js, j < s.payers.length) (k : ℕ) (hk : s.cash k = 0) :
    (innerLoop prec i js s).cash k = 0 :=
  le_antisymm (innerLoop_nonpos_pres prec js s hm hi hjs k (le_of_eq hk))
    (innerLoop_nonneg_pres prec js s hm hi hjs k (ge_of_eq hk))

/-- The main inner-pass invariant: starting a pass with the payer at
index `i` non-negative, the pass keeps it non-negative, and if the payer
is still strictly positive at the end of the pass then every visited
recipient ended the pass non-negative. -/
theorem innerLoop_inv (prec : ℕ) {i : ℕ} (js : List ℕ) (s : SettleState)
    (hm : MulState prec s) (hi : i < s.payers.length)
    (hjs : ∀ j ∈ js, j < s.payers.length) (h0 : 0 ≤ s.cash i) :
    0 ≤ (innerLoop prec i js s).cash i ∧
      (0 < (innerLoop prec i js s).cash i →
        ∀ j ∈ js, 0 ≤ (innerLoop prec i js s).cash j) := by
  induction js generalizing s with
  | nil => exact ⟨h0, fun _ j hj => absurd hj (List.not_mem_nil j)⟩
  | cons j rest ih =>
    have hjlen : j < s.payers.length := hjs j (List.mem_cons_self j rest)
    have hrest : ∀ j' ∈ rest, j' < s.payers.length :=
      fun j' hj' => hjs j' (List.mem_cons_of_mem j hj')
    have hm1 : MulState prec (step prec i j s) := step_MulState prec i j s hm
    have hlen1 : (step prec i j s).payers.length = s.payers.length :=
      step_length prec i j s
    have hi1 : i < (step prec i j s).payers.length := by rw [hlen1]; exact hi
    have hrest1 : ∀ j' ∈ rest, j' < (step prec i j s).payers.length :=
      fun j' hj' => by rw [hlen1]; exact hrest j' hj'
    have h01 : 0 ≤ (step prec i j s).cash i :=
      step_nonneg_pres prec s hm hi hjlen i h0
    obtain ⟨ha, hb⟩ := ih (step prec i j s) hm1 hi1 hrest1 h01
    rw [innerLoop_cons]
    refine ⟨ha, fun hpos j' hj' => ?_⟩
    rcases List.mem_cons.mp hj' with heq | hj'rest
    · subst heq
      by_cases hq : 0 ≤ (step prec i j' s).cash j'
      · exact innerLoop_nonneg_pres prec rest _ hm1 hi1 hrest1 j' hq
      · -- the recipient is still negative after its step; then the payer
        -- was exhausted at this step, contradicting positivity at the end
        push_neg at hq
        exfalso
        have hizero : (step prec i j' s).cash i = 0 := by
          by_cases hcond : (s.payers.getD j' dfltPayer).is_owed_money prec ∧
              amt prec i j' s ≠ 0
          · have h3 : step prec i j' s = fire prec i j' s := by
              unfold step
              exact if_pos hcond
            have hcj : s.cash j' < 0 := (owed_iff_neg hm j').mp hcond.1
            have hij : i ≠ j' := by
              intro he
              rw [he] at h0
              exact absurd h0 (not_le.mpr hcj)
            have hcashj : (step prec i j' s).cash j' =
                s.cash j' + amt prec i j' s := by
              rw [h3]
              exact fire_cash_j prec s hij hjlen
            have hamtlt : amt prec i j' s < -(s.cash j') := by
              rw [hcashj] at hq
              linarith
            have hmin : amt prec i j' s = min |s.cash i| |s.cash j'| :=
              amt_eq i j' hm
            have habsj : |s.cash j'| = -(s.cash j') := abs_of_neg hcj
            have hmini : min |s.cash i| |s.cash j'| = |s.cash i| := by
              rcases le_total |s.cash i| |s.cash j'| with hle | hle
              · exact min_eq_left hle
              · have hr : min |s.cash i| |s.cash j'| = |s.cash j'| :=
                  min_eq_right hle
                rw [hr, habsj] at hmin
                rw [hmin] at hamtlt
                exact absurd hamtlt (lt_irrefl _)
            have hamti : amt prec i j' s = s.cash i := by
              rw [hmin, hmini, abs_of_nonneg h0]
            have hcashi : (step prec i j' s).cash i =
                s.cash i - amt prec i j' s := by
              rw [h3]
              exact fire_cash_i prec s hij hi
            rw [hcashi, hamti]
            ring
          · have h3 : step prec i j' s = s := by
              unfold step
              exact if_neg hcond
            rw [h3] at hq ⊢
            have howed := (owed_iff_neg hm j').mpr hq
            have hamt : amt prec i j' s = 0 := by
              by_contra hne
              exact hcond ⟨howed, hne⟩
            have hmin0 : min |s.cash i| |s.cash j'| = 0 := by
              rw [← amt_eq i j' hm]
              exact hamt
            have habsi : |s.cash i| = 0 := by
              rcases le_total |s.cash i| |s.cash j'| with hle | hle
              · rw [min_eq_left hle] at hmin0
                exact hmin0
              · rw [min_eq_right hle] at hmin0
                exact absurd hmin0 (abs_ne_zero.mpr (ne_of_lt hq))
            exact abs_eq_zero.mp habsi
        have hfin := innerLoop_zero_pres prec rest _ hm1 hi1 hrest1 i hizero
        rw [hfin] at hpos
        exact lt_irrefl 0 hpos
    · exact hb hpos j' hj'rest

/-! ### Sum lemmas -/

theorem sumCash_nonneg (l : List Payer) (h : ∀ p ∈ l, 0 ≤ p.cashflow) :
    0 ≤ sumCash l := by
  induction l with
  | nil => simp
  | cons a t ih =>
    have ha := h a (List.mem_cons_self a t)
    have ht := ih (fun p hp => h p (List.mem_cons_of_mem a hp))
    simp only [sumCash_cons]
    linarith

theorem sumCash_nonpos (l : List Payer) (h : ∀ p ∈ l, p.cashflow ≤ 0) :
    sumCash l ≤ 0 := by
  induction l with
  | nil => simp
  | cons a t ih =>
    have ha := h a (List.mem_cons_self a t)
    have ht := ih (fun p hp => h p (List.mem_cons_of_mem a hp))
    simp only [sumCash_cons]
    linarith

theorem sumCash_pos_of (l : List Payer) (h : ∀ p ∈ l, 0 ≤ p.cashflow) {k : ℕ}
    (hk : k < l.length) (hpos : 0 < (l.getD k dfltPayer).cashflow) :
    0 < sumCash l := by
  induction l generalizing k with
  | nil => simp at hk
  | cons a t ih =>
    have ht := sumCash_nonneg t (fun p hp => h p (List.mem_cons_of_mem a hp))
    cases k with
    | zero =>
      rw [List.getD_cons_zero] at hpos
      simp only [sumCash_cons]
      linarith
    | succ n =>
      rw [List.getD_cons_succ] at hpos
      have ha := h a (List.mem_cons_self a t)
      have := ih (fun p hp => h p (List.mem_cons_of_mem a hp)) (by simpa using hk) hpos
      simp only [sumCash_cons]
      linarith

theorem all_zero_of_nonpos_sum (l : List Payer) (h : ∀ p ∈ l, p.cashflow ≤ 0)
    (hs : sumCash l = 0) : ∀ p ∈ l, p.cashflow = 0 := by
  induction l with
  | nil => intro p hp; simp at hp
  | cons a t ih =>
    have ha := h a (List.mem_cons_self a t)
    have ht' : ∀ p ∈ t, p.cashflow ≤ 0 := fun p hp => h p (List.mem_cons_of_mem a hp)
    have ht := sumCash_nonpos t ht'
    rw [sumCash_cons] at hs
    have ha0 : a.cashflow = 0 := by linarith
    have hts : sumCash t = 0 := by linarith
    intro p hp
    rcases List.mem_cons.mp hp with heq | hmem
    · rw [heq]; exact ha0
    · exact ih ht' hts p hmem

theorem forall_mem_of_forall_getD {P : Payer → Prop} (l : List Payer)
    (h : ∀ k, k < l.length → P (l.getD k dfltPayer)) : ∀ p ∈ l, P p := by
  intro p hp
  obtain ⟨k, hk, he⟩ := List.mem_iff_getElem.mp hp
  have hgd : l.getD k dfltPayer = p := by
    rw [List.getD_eq_getElem?_getD, List.getElem?_eq_getElem hk]
    exact he
  rw [← hgd]
  exact h k hk

/-! ### The full pass zeroes a positive payer -/

theorem pass_zero (prec : ℕ) {i : ℕ} (s : SettleState) (hm : MulState prec s)
    (hi : i < s.payers.length) (hsum : sumCash s.payers = 0)
    (hpos : 0 < s.cash i) :
    (innerLoop prec i (List.range s.payers.length).reverse s).cash i = 0 := by
  have hjs : ∀ j ∈ (List.range s.payers.length).reverse, j < s.payers.length := by
    intro j hj
    rw [List.mem_reverse, List.mem_range] at hj
    exact hj
  obtain ⟨ha, hb⟩ := innerLoop_inv prec _ s hm hi hjs (le_of_lt hpos)
  by_contra hne
  have hpos' : 0 < (innerLoop prec i (List.range s.payers.length).reverse s).cash i :=
    lt_of_le_of_ne ha (Ne.symm hne)
  have hall := hb hpos'
  have hsum' :
      sumCash (innerLoop prec i (List.range s.payers.length).reverse s).payers = 0 := by
    rw [innerLoop_sum prec _ s hi hjs]
    exact hsum
  have hlen' :
      (innerLoop prec i (List.range s.payers.length).reverse s).payers.length =
        s.payers.length := innerLoop_length prec _ _ _
  have hallmem :
      ∀ p ∈ (innerLoop prec i (List.range s.payers.length).reverse s).payers,
        0 ≤ p.cashflow := by
    apply forall_mem_of_forall_getD
    intro k hk
    exact hall k (by rw [List.mem_reverse, List.mem_range]; omega)
  have := sumCash_pos_of _ hallmem (k := i) (by rw [hlen']; exact hi) hpos'
  rw [hsum'] at this
  exact lt_irrefl 0 this

/-! ### Outer loop invariants -/

theorem outerLoop_nil (prec : ℕ) (s : SettleState) : outerLoop prec [] s = s := rfl

theorem outerLoop_cons (prec i : ℕ) (is : List ℕ) (s : SettleState) :
    outerLoop prec (i :: is) s = outerLoop prec is (outerStep prec s i) := rfl

theorem outerStep_length (prec : ℕ) (s : SettleState) (i : ℕ) :
    (outerStep prec s i).payers.length = s.payers.length := by
  unfold outerStep
  split_ifs
  · exact innerLoop_length prec i _ s
  · rfl

theorem outerStep_MulState (prec : ℕ) (s : SettleState) (i : ℕ)
    (hm : MulState prec s) : MulState prec (outerStep prec s i) := by
  unfold outerStep
  split_ifs
  · exact innerLoop_MulState prec i _ s hm
  · exact hm

theorem outerStep_map_proj (prec : ℕ) (s : SettleState) (i : ℕ) :
    (outerStep prec s i).payers.map proj = s.payers.map proj := by
  unfold outerStep
  split_ifs
  · exact innerLoop_map_proj prec i _ s
  · rfl

theorem range_reverse_lt (n : ℕ) : ∀ j ∈ (List.range n).reverse, j < n := by
  intro j hj
  rw [List.mem_reverse, List.mem_range] at hj
  exact hj

theorem outerStep_sum (prec : ℕ) (s : SettleState) {i : ℕ}
    (hi : i < s.payers.length) :
    sumCash (outerStep prec s i).payers = sumCash s.payers := by
  unfold outerStep
  split_ifs
  · exact innerLoop_sum prec _ s hi (range_reverse_lt _)
  · rfl

theorem outerStep_nonpos_pres (prec : ℕ) (s : SettleState) {i : ℕ}
    (hm : MulState prec s) (hi : i < s.payers.length) (k : ℕ)
    (hk : s.cash k ≤ 0) : (outerStep prec s i).cash k ≤ 0 := by
  unfold outerStep
  split_ifs
  · exact innerLoop_nonpos_pres prec _ s hm hi (range_reverse_lt _) k hk
  · exact hk

theorem outerStep_self_nonpos (prec : ℕ) (s : SettleState) {i : ℕ}
    (hm : MulState prec s) (hi : i < s.payers.length)
    (hsum : sumCash s.payers = 0) : (outerStep prec s i).cash i ≤ 0 := by
  unfold outerStep
  split_ifs with hg
  · have hpos : 0 < s.cash i := (owes_iff_pos hm i).mp hg
    rw [pass_zero prec s hm hi hsum hpos]
  · have := (owes_iff_pos hm i).not.mp hg
    push_neg at this
    exact this

theorem outerLoop_inv (prec : ℕ) (is : List ℕ) (s : SettleState)
    (hm : MulState prec s) (his : ∀ i ∈ is, i < s.payers.length)
    (hsum : sumCash s.payers = 0) :
    MulState prec (outerLoop prec is s) ∧
      sumCash (outerLoop prec is s).payers = 0 ∧
      (outerLoop prec is s).payers.length = s.payers.length ∧
      (∀ k, s.cash k ≤ 0 → (outerLoop prec is s).cash k ≤ 0) ∧
      (∀ i ∈ is, (outerLoop prec is s).cash i ≤ 0) := by
  induction is generalizing s with
  | nil =>
    exact ⟨hm, hsum, rfl, fun _ hk => hk, fun i hi => absurd hi (List.not_mem_nil i)⟩
  | cons i rest ih =>
    have hi : i < s.payers.length := his i (List.mem_cons_self i rest)
    have hrest : ∀ i' ∈ rest, i' < s.payers.length :=
      fun i' hi' => his i' (List.mem_cons_of_mem i hi')
    have hm1 := outerStep_MulState prec s i hm
    have hlen1 := outerStep_length prec s i
    have hsum1 : sumCash (outerStep prec s i).payers = 0 := by
      rw [outerStep_sum prec s hi]
      exact hsum
    have hrest1 : ∀ i' ∈ rest, i' < (outerStep prec s i).payers.length :=
      fun i' hi' => by rw [hlen1]; exact hrest i' hi'
    obtain ⟨hm', hsum', hlen', hpres', hall'⟩ := ih (outerStep prec s i) hm1 hrest1 hsum1
    rw [outerLoop_cons]
    refine ⟨hm', hsum', hlen'.trans hlen1, ?_, ?_⟩
    · intro k hk
      exact hpres' k (outerStep_nonpos_pres prec s hm hi k hk)
    · intro i' hi'
      rcases List.mem_cons.mp hi' with heq | hmem
      · subst heq
        exact hpres' i' (outerStep_self_nonpos prec s hm hi hsum)
      · exact hall' i' hmem

/-! ### The master correctness theorem: exact inputs settle to zero -/

theorem resolve_fst (prec : ℕ) (l : List Payer) :
    (resolve_expenses prec l).1 =
      (outerLoop prec (List.range (sortPayers l).length) ⟨sortPayers l, []⟩).instrs := rfl

theorem resolve_snd (prec : ℕ) (l : List Payer) :
    (resolve_expenses prec l).2 =
      (outerLoop prec (List.range (sortPayers l).length) ⟨sortPayers l, []⟩).payers := rfl

theorem sortPayers_perm (l : List Payer) : (sortPayers l).Perm l :=
  List.perm_insertionSort byDesc l

theorem sumCash_perm {l1 l2 : List Payer} (h : l1.Perm l2) : sumCash l1 = sumCash l2 :=
  (h.map Payer.cashflow).sum_eq

/-- Exact settlement: if every cashflow is an exact multiple of the
monetary unit and the cashflows sum to exactly zero, the loop drives
every cashflow to exactly zero. -/
theorem settle_balances_zero (prec : ℕ) (l : List Payer)
    (hmul : ∀ p ∈ l, isMul prec p.cashflow) (hsum : sumCash l = 0) :
    ∀ p ∈ (resolve_expenses prec l).2, p.cashflow = 0 := by
  have hperm := sortPayers_perm l
  have hmul' : MulState prec ⟨sortPayers l, []⟩ :=
    fun p hp => hmul p (hperm.mem_iff.mp hp)
  have hsum' : sumCash (sortPayers l) = 0 := by
    rw [sumCash_perm hperm]
    exact hsum
  have his : ∀ i ∈ List.range (sortPayers l).length,
      i < (⟨sortPayers l, ([] : List Instr)⟩ : SettleState).payers.length := by
    intro i hi
    rw [List.mem_range] at hi
    exact hi
  obtain ⟨hm', hsum'', hlen', _, hall'⟩ := outerLoop_inv prec _ _ hmul' his hsum'
  rw [resolve_snd]
  refine all_zero_of_nonpos_sum _ ?_ hsum''
  apply forall_mem_of_forall_getD
  intro k hk
  refine hall' k ?_
  rw [List.mem_range]
  rw [hlen'] at hk
  exact hk

/-! ### Accounting: per-participant sent and received totals -/

theorem sentSum_nil (nm : String) : sentSum [] nm = 0 := rfl

theorem recvSum_nil (nm : String) : recvSum [] nm = 0 := rfl

theorem sentSum_append (a b : List Instr) (nm : String) :
    sentSum (a ++ b) nm = sentSum a nm + sentSum b nm := by
  simp [sentSum, List.filter_append]

theorem recvSum_append (a b : List Instr) (nm : String) :
    recvSum (a ++ b) nm = recvSum a nm + recvSum b nm := by
  simp [recvSum, List.filter_append]

theorem sentSum_single (ins : Instr) (nm : String) :
    sentSum [ins] nm = if ins.fromName = nm then ins.amount else 0 := by
  simp only [sentSum, List.filter]
  split_ifs with h
  · simp [h]
  · simp [h]

theorem recvSum_single (ins : Instr) (nm : String) :
    recvSum [ins] nm = if ins.toName = nm then ins.amount else 0 := by
  simp only [recvSum, List.filter]
  split_ifs with h
  · simp [h]
  · simp [h]

theorem sentSum_single_eq {ins : Instr} {nm : String} (h : ins.fromName = nm) :
    sentSum [ins] nm = ins.amount := by
  rw [sentSum_single, if_pos h]

theorem sentSum_single_ne {ins : Instr} {nm : String} (h : ¬ ins.fromName = nm) :
    sentSum [ins] nm = 0 := by
  rw [sentSum_single, if_neg h]

theorem recvSum_single_eq {ins : Instr} {nm : String} (h : ins.toName = nm) :
    recvSum [ins] nm = ins.amount := by
  rw [recvSum_single, if_pos h]

theorem recvSum_single_ne {ins : Instr} {nm : String} (h : ¬ ins.toName = nm) :
    recvSum [ins] nm = 0 := by
  rw [recvSum_single, if_neg h]

theorem names_eq_of_map_proj {l1 l2 : List Payer} (h : l1.map proj = l2.map proj)
    (k : ℕ) : (l1.getD k dfltPayer).name = (l2.getD k dfltPayer).name := by
  have h1 : (l1.map proj).getD k (proj dfltPayer) =
      (l2.map proj).getD k (proj dfltPayer) := by rw [h]
  rw [List.getD_map, List.getD_map] at h1
  exact congrArg Prod.fst h1

theorem spent_eq_of_map_proj {l1 l2 : List Payer} (h : l1.map proj = l2.map proj)
    (k : ℕ) : (l1.getD k dfltPayer).spent = (l2.getD k dfltPayer).spent := by
  have h1 : (l1.map proj).getD k (proj dfltPayer) =
      (l2.map proj).getD k (proj dfltPayer) := by rw [h]
  rw [List.getD_map, List.getD_map] at h1
  exact congrArg Prod.snd h1

theorem nodup_names_inj {b : List Payer} (h : (b.map Payer.name).Nodup)
    {k k' : ℕ} (hk : k < b.length) (hk' : k' < b.length) (hne : k ≠ k') :
    (b.getD k dfltPayer).name ≠ (b.getD k' dfltPayer).name := by
  intro he
  have hkm : k < (b.map Payer.name).length := by simpa using hk
  have hkm' : k' < (b.map Payer.name).length := by simpa using hk'
  have h1 : (b.map Payer.name)[k] = (b.map Payer.name)[k'] := by
    have e1 : (b.map Payer.name)[k] = (b.getD k dfltPayer).name := by
      rw [show (b.getD k dfltPayer).name =
        (b.map Payer.name).getD k dfltPayer.name from (List.getD_map b dfltPayer _).symm,
        List.getD_eq_getElem?_getD, List.getElem?_eq_getElem hkm]
      rfl
    have e2 : (b.map Payer.name)[k'] = (b.getD k' dfltPayer).name := by
      rw [show (b.getD k' dfltPayer).name =
        (b.map Payer.name).getD k' dfltPayer.name from (List.getD_map b dfltPayer _).symm,
        List.getD_eq_getElem?_getD, List.getElem?_eq_getElem hkm']
      rfl
    rw [e1, e2, he]
  exact hne ((h.getElem_inj_iff).mp h1)

/-- The bookkeeping invariant tying the emitted instructions to the net
cash movement of each participant, relative to the sorted initial list
`b`.  (`noSend` — a participant that started non-positive never sends —
is not step-local and is carried separately at the pass level.) -/
def Acct (prec : ℕ) (b : List Payer) (s : SettleState) : Prop :=
  MulState prec s ∧
  s.payers.map proj = b.map proj ∧
  (∀ k, k < b.length →
    sentSum s.instrs (b.getD k dfltPayer).name -
      recvSum s.instrs (b.getD k dfltPayer).name =
      (b.getD k dfltPayer).cashflow - s.cash k) ∧
  (∀ k, k < b.length → 0 ≤ (b.getD k dfltPayer).cashflow → 0 ≤ s.cash k) ∧
  (∀ k, k < b.length → (b.getD k dfltPayer).cashflow ≤ 0 → s.cash k ≤ 0) ∧
  (∀ k, k < b.length → 0 ≤ (b.getD k dfltPayer).cashflow →
    recvSum s.instrs (b.getD k dfltPayer).name = 0)

theorem Acct_step (prec : ℕ) {i j : ℕ} {b : List Payer} (s : SettleState)
    (hnd : (b.map Payer.name).Nodup) (hi : i < b.length) (hj : j < b.length)
    (h : Acct prec b s) : Acct prec b (step prec i j s) := by
  obtain ⟨hmul, hprj, hacct, hpos, hneg, hnorecv⟩ := h
  have hlen : s.payers.length = b.length := by
    have h1 := congrArg List.length hprj
    simpa using h1
  have hi' : i < s.payers.length := by omega
  have hj' : j < s.payers.length := by omega
  by_cases hcond : (s.payers.getD j dfltPayer).is_owed_money prec ∧
      amt prec i j s ≠ 0
  case neg =>
    have h3 : step prec i j s = s := by
      unfold step
      exact if_neg hcond
    rw [h3]
    exact ⟨hmul, hprj, hacct, hpos, hneg, hnorecv⟩
  case pos =>
  have h3 : step prec i j s = fire prec i j s := by
    unfold step
    exact if_pos hcond
  have hscj : s.cash j < 0 := (owed_iff_neg hmul j).mp hcond.1
  have hni : (s.payers.getD i dfltPayer).name = (b.getD i dfltPayer).name :=
    names_eq_of_map_proj hprj i
  have hnj : (s.payers.getD j dfltPayer).name = (b.getD j dfltPayer).name :=
    names_eq_of_map_proj hprj j
  have hinstr : (step prec i j s).instrs = s.instrs ++
      [⟨(b.getD i dfltPayer).name, (b.getD j dfltPayer).name, amt prec i j s⟩] := by
    rw [h3, fire_instrs, hni, hnj]
  refine ⟨by rw [h3]; exact fire_MulState prec i j s hmul,
    by rw [step_map_proj]; exact hprj, ?_,
    fun k hk h0 => step_nonneg_pres prec s hmul hi' hj' k (hpos k hk h0),
    fun k hk h0 => step_nonpos prec s hmul hi' hj' k (hneg k hk h0), ?_⟩
  · -- the ledger equation
    intro k hk
    have hb := hacct k hk
    rw [hinstr, sentSum_append, recvSum_append]
    by_cases hij : i = j
    · subst hij
      by_cases hki : k = i
      · subst hki
        rw [sentSum_single_eq rfl, recvSum_single_eq rfl]
        have hcash : (step prec k k s).cash k = s.cash k := by
          rw [h3]
          exact fire_cash_self prec s
        rw [hcash]
        dsimp only
        linarith [hb]
      · have hne : (b.getD i dfltPayer).name ≠ (b.getD k dfltPayer).name :=
          nodup_names_inj hnd hi hk (fun he => hki he.symm)
        rw [sentSum_single_ne hne, recvSum_single_ne hne]
        have hcash : (step prec i i s).cash k = s.cash k := by
          rw [h3]
          exact fire_cash_other prec s hki hki
        rw [hcash]
        linarith [hb]
    · by_cases hki : k = i
      · subst hki
        rw [sentSum_single_eq rfl,
          recvSum_single_ne (nodup_names_inj hnd hj hk (fun he => hij he.symm))]
        have hcash : (step prec k j s).cash k = s.cash k - amt prec k j s := by
          rw [h3]
          exact fire_cash_i prec s hij hi'
        rw [hcash]
        dsimp only
        linarith [hb]
      · by_cases hkj : k = j
        · subst hkj
          rw [sentSum_single_ne (nodup_names_inj hnd hi hk hij),
            recvSum_single_eq rfl]
          have hcash : (step prec i k s).cash k = s.cash k + amt prec i k s := by
            rw [h3]
            exact fire_cash_j prec s hij hj'
          rw [hcash]
          dsimp only
          linarith [hb]
        · rw [sentSum_single_ne (nodup_names_inj hnd hi hk (fun he => hki he.symm)),
            recvSum_single_ne (nodup_names_inj hnd hj hk (fun he => hkj he.symm))]
          have hcash : (step prec i j s).cash k = s.cash k := by
            rw [h3]
            exact fire_cash_other prec s hki hkj
          rw [hcash]
          linarith [hb]
  · -- a participant that started non-negative never receives
    intro k hk h0
    rw [hinstr, recvSum_append]
    have h0s : 0 ≤ s.cash k := hpos k hk h0
    have hkj : k ≠ j := fun he => by
      rw [he] at h0s
      linarith
    rw [recvSum_single_ne (nodup_names_inj hnd hj hk (fun he => hkj he.symm)),
      hnorecv k hk h0]
    norm_num

theorem Acct_innerLoop (prec : ℕ) {i : ℕ} (js : List ℕ) {b : List Payer}
    (s : SettleState) (hnd : (b.map Payer.name).Nodup) (hi : i < b.length)
    (hjs : ∀ j ∈ js, j < b.length) (h : Acct prec b s) :
    Acct prec b (innerLoop prec i js s) := by
  induction js generalizing s with
  | nil => exact h
  | cons j rest ih =>
    rw [innerLoop_cons]
    exact ih _ (fun j' hj' => hjs j' (List.mem_cons_of_mem j hj'))
      (Acct_step prec s hnd hi (hjs j (List.mem_cons_self j rest)) h)

theorem sentSum_eq_zero {t : List Instr} {nm : String}
    (h : ∀ ins ∈ t, ins.fromName ≠ nm) : sentSum t nm = 0 := by
  unfold sentSum
  rw [List.filter_eq_nil_iff.mpr]
  · rfl
  · intro ins hins
    simp [h ins hins]

/-- Every instruction appended during an inner pass for payer index `i`
carries that payer's name in its `from` field. -/
theorem innerLoop_instrs_from (prec i : ℕ) (js : List ℕ) (s : SettleState) :
    ∃ t, (innerLoop prec i js s).instrs = s.instrs ++ t ∧
      ∀ ins ∈ t, ins.fromName = (s.payers.getD i dfltPayer).name := by
  induction js generalizing s with
  | nil =>
    exact ⟨[], (List.append_nil _).symm, fun ins hins => absurd hins (List.not_mem_nil ins)⟩
  | cons j rest ih =>
    rw [innerLoop_cons]
    obtain ⟨t1, ht1, ht1n⟩ := ih (step prec i j s)
    have hname : ((step prec i j s).payers.getD i dfltPayer).name =
        (s.payers.getD i dfltPayer).name :=
      names_eq_of_map_proj (step_map_proj prec i j s) i
    by_cases hcond : (s.payers.getD j dfltPayer).is_owed_money prec ∧
        amt prec i j s ≠ 0
    · have h3 : step prec i j s = fire prec i j s := by
        unfold step
        exact if_pos hcond
      refine ⟨⟨(s.payers.getD i dfltPayer).name,
          (s.payers.getD j dfltPayer).name, amt prec i j s⟩ :: t1, ?_, ?_⟩
      · rw [ht1, h3, fire_instrs]
        simp
      · intro ins hins
        rcases List.mem_cons.mp hins with heq | hmem
        · rw [heq]
        · rw [ht1n ins hmem, hname]
    · have h3 : step prec i j s = s := by
        unfold step
        exact if_neg hcond
      rw [h3] at ht1 ht1n ⊢
      exact ⟨t1, ht1, ht1n⟩

/-- The full accounting invariant, including `noSend`: a participant
whose initial balance was non-positive never appears in a `from` field. -/
def AcctS (prec : ℕ) (b : List Payer) (s : SettleState) : Prop :=
  Acct prec b s ∧
  ∀ k, k < b.length → (b.getD k dfltPayer).cashflow ≤ 0 →
    sentSum s.instrs (b.getD k dfltPayer).name = 0

theorem AcctS_outerStep (prec : ℕ) {b : List Payer} (s : SettleState) {i : ℕ}
    (hnd : (b.map Payer.name).Nodup) (hi : i < b.length)
    (h : AcctS prec b s) : AcctS prec b (outerStep prec s i) := by
  obtain ⟨hacct, hns⟩ := h
  have hmul : MulState prec s := hacct.1
  have hlen : s.payers.length = b.length := by
    have h1 := congrArg List.length hacct.2.1
    simpa using h1
  unfold outerStep
  split_ifs with hg
  case neg => exact ⟨hacct, hns⟩
  case pos =>
  have hjs : ∀ j ∈ (List.range s.payers.length).reverse, j < b.length := by
    intro j hj
    rw [List.mem_reverse, List.mem_range] at hj
    omega
  refine ⟨Acct_innerLoop prec _ s hnd hi hjs hacct, ?_⟩
  intro k hk h0
  -- the active payer started strictly positive, so its name differs from
  -- that of any participant that started non-positive
  have hposi : 0 < s.cash i := (owes_iff_pos hmul i).mp hg
  have hbi : ¬ (b.getD i dfltPayer).cashflow ≤ 0 := by
    intro hle
    have := hacct.2.2.2.2.1 i hi hle
    linarith
  have hki : k ≠ i := by
    intro he
    rw [he] at h0
    exact hbi h0
  obtain ⟨t, ht, htn⟩ := innerLoop_instrs_from prec i
    (List.range s.payers.length).reverse s
  rw [ht, sentSum_append, hns k hk h0, sentSum_eq_zero, add_zero]
  intro ins hins
  rw [htn ins hins, names_eq_of_map_proj hacct.2.1 i]
  exact nodup_names_inj hnd hi hk (fun he => hki he.symm)

theorem AcctS_outerLoop (prec : ℕ) (is : List ℕ) {b : List Payer}
    (s : SettleState) (hnd : (b.map Payer.name).Nodup)
    (his : ∀ i ∈ is, i < b.length) (h : AcctS prec b s) :
    AcctS prec b (outerLoop prec is s) := by
  induction is generalizing s with
  | nil => exact h
  | cons i rest ih =>
    rw [outerLoop_cons]
    exact ih _ (fun i' hi' => his i' (List.mem_cons_of_mem i hi'))
      (AcctS_outerStep prec s hnd (his i (List.mem_cons_self i rest)) h)

/-- Conservation: with unique names and exact balances summing to zero,
each participant sends exactly `max netBalance 0` in total and receives
exactly `max (-netBalance) 0` in total. -/
theorem settle_conservation (prec : ℕ) (l : List Payer)
    (hnd : (l.map Payer.name).Nodup)
    (hmul : ∀ p ∈ l, isMul prec p.cashflow) (hsum : sumCash l = 0) :
    ∀ p ∈ l, sentSum (resolve_expenses prec l).1 p.name = max p.cashflow 0 ∧
      recvSum (resolve_expenses prec l).1 p.name = max (-p.cashflow) 0 := by
  have hperm : (sortPayers l).Perm l := sortPayers_perm l
  have hndb : ((sortPayers l).map Payer.name).Nodup :=
    ((hperm.map Payer.name).nodup_iff).mpr hnd
  have hmulb : MulState prec ⟨sortPayers l, []⟩ :=
    fun p hp => hmul p (hperm.mem_iff.mp hp)
  have h0 : AcctS prec (sortPayers l) ⟨sortPayers l, []⟩ := by
    refine ⟨⟨hmulb, rfl, ?_, ?_, ?_, ?_⟩, ?_⟩
    · intro k _
      rw [sentSum_nil, recvSum_nil]
      show (0 : ℚ) - 0 = _ - _
      rw [sub_self]
      show (0 : ℚ) = ((sortPayers l).getD k dfltPayer).cashflow -
        ((sortPayers l).getD k dfltPayer).cashflow
      rw [sub_self]
    · intro k _ h
      exact h
    · intro k _ h
      exact h
    · intro k _ _
      rfl
    · intro k _ _
      rfl
  have his : ∀ i ∈ List.range (sortPayers l).length, i < (sortPayers l).length :=
    fun i hi => List.mem_range.mp hi
  have hfin := AcctS_outerLoop prec (List.range (sortPayers l).length)
    (⟨sortPayers l, []⟩ : SettleState) hndb his h0
  obtain ⟨⟨hmulf, hprjf, hacctf, hposf, hnegf, hnorecvf⟩, hnosendf⟩ := hfin
  have hzero := settle_balances_zero prec l hmul hsum
  intro p hp
  have hpb : p ∈ sortPayers l := hperm.mem_iff.mpr hp
  obtain ⟨k, hk, hbk⟩ := List.mem_iff_getElem.mp hpb
  have hgd : (sortPayers l).getD k dfltPayer = p := by
    rw [List.getD_eq_getElem?_getD, List.getElem?_eq_getElem hk]
    exact hbk
  have hlenf : (outerLoop prec (List.range (sortPayers l).length)
      (⟨sortPayers l, []⟩ : SettleState)).payers.length = (sortPayers l).length := by
    have h1 := congrArg List.length hprjf
    simpa using h1
  have hczero : (outerLoop prec (List.range (sortPayers l).length)
      (⟨sortPayers l, []⟩ : SettleState)).cash k = 0 := by
    have hmem : (outerLoop prec (List.range (sortPayers l).length)
        (⟨sortPayers l, []⟩ : SettleState)).payers.getD k dfltPayer ∈
        (outerLoop prec (List.range (sortPayers l).length)
          (⟨sortPayers l, []⟩ : SettleState)).payers :=
      getD_mem _ (by omega) _
    exact hzero _ hmem
  have hacck := hacctf k hk
  rw [hczero, sub_zero, hgd] at hacck
  rcases le_total 0 p.cashflow with hc | hc
  · have hr : recvSum (resolve_expenses prec l).1 p.name = 0 := by
      have h1 := hnorecvf k hk (by rw [hgd]; exact hc)
      rw [hgd] at h1
      exact h1
    refine ⟨?_, ?_⟩
    · rw [max_eq_left hc]
      have h2 : sentSum (resolve_expenses prec l).1 p.name -
          recvSum (resolve_expenses prec l).1 p.name = p.cashflow := hacck
      rw [hr] at h2
      linarith
    · rw [hr, max_eq_right (by linarith : -p.cashflow ≤ 0)]
  · have hs : sentSum (resolve_expenses prec l).1 p.name = 0 := by
      have h1 := hnosendf k hk (by rw [hgd]; exact hc)
      rw [hgd] at h1
      exact h1
    refine ⟨?_, ?_⟩
    · rw [hs, max_eq_right hc]
    · rw [max_eq_left (by linarith : 0 ≤ -p.cashflow)]
      have h2 : sentSum (resolve_expenses prec l).1 p.name -
          recvSum (resolve_expenses prec l).1 p.name = p.cashflow := hacck
      rw [hs] at h2
      linarith

/-! ### Unconditional loop frame properties -/

theorem outerLoop_sum (prec : ℕ) (is : List ℕ) (s : SettleState)
    (his : ∀ i ∈ is, i < s.payers.length) :
    sumCash (outerLoop prec is s).payers = sumCash s.payers := by
  induction is generalizing s with
  | nil => rfl
  | cons i rest ih =>
    have hi : i < s.payers.length := his i (List.mem_cons_self i rest)
    rw [outerLoop_cons, ih _ (fun i' hi' => by
      rw [outerStep_length]
      exact his i' (List.mem_cons_of_mem i hi')), outerStep_sum prec s hi]

theorem resolve_sum (prec : ℕ) (l : List Payer) :
    sumCash (resolve_expenses prec l).2 = sumCash l := by
  rw [resolve_snd, outerLoop_sum prec (List.range (sortPayers l).length)
    ⟨sortPayers l, []⟩ (fun i hi => List.mem_range.mp hi)]
  exact sumCash_perm (sortPayers_perm l)

theorem outerLoop_map_proj (prec : ℕ) (is : List ℕ) (s : SettleState) :
    (outerLoop prec is s).payers.map proj = s.payers.map proj := by
  induction is generalizing s with
  | nil => rfl
  | cons i rest ih =>
    rw [outerLoop_cons, ih, outerStep_map_proj]

theorem resolve_map_proj (prec : ℕ) (l : List Payer) :
    (resolve_expenses prec l).2.map proj = (sortPayers l).map proj := by
  rw [resolve_snd, outerLoop_map_proj]

/-! ### No dust: every emitted instruction has a nonzero amount -/

theorem step_instrs_nonzero (prec i j : ℕ) (s : SettleState)
    (h : ∀ ins ∈ s.instrs, ins.amount ≠ 0) :
    ∀ ins ∈ (step prec i j s).instrs, ins.amount ≠ 0 := by
  by_cases hcond : (s.payers.getD j dfltPayer).is_owed_money prec ∧
      amt prec i j s ≠ 0
  · have h3 : step prec i j s = fire prec i j s := by
      unfold step
      exact if_pos hcond
    rw [h3, fire_instrs]
    intro ins hins
    rcases List.mem_append.mp hins with hmem | hmem
    · exact h ins hmem
    · rw [List.mem_singleton.mp hmem]
      exact hcond.2
  · have h3 : step prec i j s = s := by
      unfold step
      exact if_neg hcond
    rw [h3]
    exact h

theorem innerLoop_instrs_nonzero (prec i : ℕ) (js : List ℕ) (s : SettleState)
    (h : ∀ ins ∈ s.instrs, ins.amount ≠ 0) :
    ∀ ins ∈ (innerLoop prec i js s).instrs, ins.amount ≠ 0 := by
  induction js generalizing s with
  | nil => exact h
  | cons j rest ih =>
    rw [innerLoop_cons]
    exact ih _ (step_instrs_nonzero prec i j s h)

theorem outerLoop_instrs_nonzero (prec : ℕ) (is : List ℕ) (s : SettleState)
    (h : ∀ ins ∈ s.instrs, ins.amount ≠ 0) :
    ∀ ins ∈ (outerLoop prec is s).instrs, ins.amount ≠ 0 := by
  induction is generalizing s with
  | nil => exact h
  | cons i rest ih =>
    rw [outerLoop_cons]
    refine ih _ ?_
    unfold outerStep
    split_ifs
    · exact innerLoop_instrs_nonzero prec i _ s h
    · exact h

theorem resolve_no_dust (prec : ℕ) (l : List Payer) :
    ∀ ins ∈ (resolve_expenses prec l).1, ins.amount ≠ 0 := by
  rw [resolve_fst]
  exact outerLoop_instrs_nonzero prec _ _ (fun ins hins => absurd hins (List.not_mem_nil ins))

theorem step_skip_zero (prec i j : ℕ) (s : SettleState)
    (h : amt prec i j s = 0) : step prec i j s = s := by
  unfold step
  exact if_neg (fun hc => hc.2 h)

theorem step_skip_not_creditor (prec i j : ℕ) (s : SettleState)
    (h : ¬ (s.payers.getD j dfltPayer).is_owed_money prec) :
    step prec i j s = s := by
  unfold step
  exact if_neg (fun hc => h hc.1)

theorem outerStep_skip_not_debtor (prec : ℕ) (s : SettleState) (i : ℕ)
    (h : ¬ (s.payers.getD i dfltPayer).owes_money prec) :
    outerStep prec s i = s := by
  unfold outerStep
  exact if_neg h

theorem outerStep_run_debtor (prec : ℕ) (s : SettleState) (i : ℕ)
    (h : (s.payers.getD i dfltPayer).owes_money prec) :
    outerStep prec s i = innerLoop prec i (List.range s.payers.length).reverse s := by
  unfold outerStep
  exact if_pos h

/-! ### Sorting properties -/

theorem sortPayers_sorted (l : List Payer) : (sortPayers l).Pairwise byDesc :=
  List.sorted_insertionSort byDesc l

theorem sortPayers_stable {a b : Payer} {l : List Payer}
    (hab : a.cashflow = b.cashflow) (h : [a, b].Sublist l) :
    [a, b].Sublist (sortPayers l) :=
  List.pair_sublist_insertionSort (le_of_eq hab.symm) h

/-! ### An instrumented run recording every visited pair -/

/-- One visited `(payer, recipient)` pair of the nested loop, with the
states immediately before and after the visit. -/
structure TraceEntry where
  before : SettleState
  payer : ℕ
  recip : ℕ
  after : SettleState
deriving DecidableEq, Repr

/-- `step` instrumented to record the visit. -/
def stepT (prec i j : ℕ) (p : SettleState × List TraceEntry) :
    SettleState × List TraceEntry :=
  (step prec i j p.1, p.2 ++ [⟨p.1, i, j, step prec i j p.1⟩])

/-- The inner loop, recording every visit. -/
def innerLoopT (prec i : ℕ) (js : List ℕ) (p : SettleState × List TraceEntry) :
    SettleState × List TraceEntry :=
  js.foldl (fun q j => stepT prec i j q) p

/-- The outer-loop body, recording every visit. -/
def outerStepT (prec : ℕ) (p : SettleState × List TraceEntry) (i : ℕ) :
    SettleState × List TraceEntry :=
  if (p.1.payers.getD i dfltPayer).owes_money prec then
    innerLoopT prec i (List.range p.1.payers.length).reverse p
  else p

/-- The outer loop, recording every visit. -/
def outerLoopT (prec : ℕ) (is : List ℕ) (p : SettleState × List TraceEntry) :
    SettleState × List TraceEntry :=
  is.foldl (outerStepT prec) p

/-- The visit trace of a full settlement run. -/
def settleTrace (prec : ℕ) (l : List Payer) : List TraceEntry :=
  (outerLoopT prec (List.range (sortPayers l).length) (⟨sortPayers l, []⟩, [])).2

theorem innerLoopT_fst (prec i : ℕ) (js : List ℕ) (p : SettleState × List TraceEntry) :
    (innerLoopT prec i js p).1 = innerLoop prec i js p.1 := by
  induction js generalizing p with
  | nil => rfl
  | cons j rest ih =>
    show (innerLoopT prec i rest (stepT prec i j p)).1 = _
    rw [ih, innerLoop_cons]
    rfl

theorem outerStepT_fst (prec : ℕ) (p : SettleState × List TraceEntry) (i : ℕ) :
    (outerStepT prec p i).1 = outerStep prec p.1 i := by
  unfold outerStepT outerStep
  split_ifs
  · exact innerLoopT_fst prec i _ p
  · rfl

theorem outerLoopT_fst (prec : ℕ) (is : List ℕ) (p : SettleState × List TraceEntry) :
    (outerLoopT prec is p).1 = outerLoop prec is p.1 := by
  induction is generalizing p with
  | nil => rfl
  | cons i rest ih =>
    show (outerLoopT prec rest (outerStepT prec p i)).1 = _
    rw [ih, outerLoop_cons, outerStepT_fst]

/-- The property every applied transfer enjoys: the payer's balance
strictly decreases, the recipient's strictly increases, and no balance
moves further from zero. -/
def Motion (e : TraceEntry) : Prop :=
  e.after ≠ e.before →
    (e.after.cash e.payer < e.before.cash e.payer ∧
      e.before.cash e.recip < e.after.cash e.recip ∧
      ∀ k, |e.after.cash k| ≤ |e.before.cash k|)

theorem step_fired_of_ne (prec i j : ℕ) (s : SettleState)
    (hne : step prec i j s ≠ s) :
    (s.payers.getD j dfltPayer).is_owed_money prec ∧ amt prec i j s ≠ 0 := by
  by_contra h
  exact hne (by unfold step; exact if_neg h)

/-- The key per-step motion estimate, valid whenever the payer's balance
is at least `-unit/2` (which the guard establishes at pass entry and this
lemma shows is maintained). -/
theorem step_motion (prec : ℕ) {i j : ℕ} (s : SettleState)
    (hi : i < s.payers.length) (hj : j < s.payers.length)
    (hinv : -(unit prec / 2) ≤ s.cash i) (hne : step prec i j s ≠ s) :
    (step prec i j s).cash i < s.cash i ∧
      s.cash j < (step prec i j s).cash j ∧
      (∀ k, |(step prec i j s).cash k| ≤ |s.cash k|) ∧
      -(unit prec / 2) ≤ (step prec i j s).cash i := by
  obtain ⟨howed, hane⟩ := step_fired_of_ne prec i j s hne
  have h3 : step prec i j s = fire prec i j s := by
    unfold step
    exact if_pos ⟨howed, hane⟩
  have hu : 0 < unit prec := unit_pos prec
  have ha0 : 0 ≤ amt prec i j s := amt_nonneg prec i j s
  have hapos : 0 < amt prec i j s := lt_of_le_of_ne ha0 (Ne.symm hane)
  have hcj : s.cash j < -(unit prec / 2) := by
    have h1 : pyround prec (s.cash j) < 0 := howed
    exact (pyround_neg_iff prec _).mp h1
  -- the rounded minimum is nonzero, so the true minimum exceeds unit/2
  have hmin_gt : unit prec / 2 < min |s.cash i| |s.cash j| := by
    by_contra hle
    push_neg at hle
    have h0 : pyround prec (min |s.cash i| |s.cash j|) = 0 :=
      (pyround_eq_zero_iff prec _).mpr
        ⟨le_trans (by linarith) (le_min (abs_nonneg _) (abs_nonneg _)), hle⟩
    exact hane h0
  have habs_i : unit prec / 2 < |s.cash i| := lt_of_lt_of_le hmin_gt (min_le_left _ _)
  have hci_pos : unit prec / 2 < s.cash i := by
    rcases abs_cases (s.cash i) with ⟨he, _⟩ | ⟨he, hneg⟩
    · rw [he] at habs_i
      exact habs_i
    · rw [he] at habs_i
      linarith
  have hij : i ≠ j := by
    intro he
    rw [he] at hci_pos
    linarith
  have ha_le_min : amt prec i j s ≤ min |s.cash i| |s.cash j| + unit prec / 2 :=
    pyround_le prec _
  have ha_le_i : amt prec i j s ≤ s.cash i + unit prec / 2 := by
    have := min_le_left |s.cash i| |s.cash j|
    have habs : |s.cash i| = s.cash i := abs_of_pos (by linarith)
    linarith [ha_le_min]
  have ha_le_j : amt prec i j s ≤ -(s.cash j) + unit prec / 2 := by
    have := min_le_right |s.cash i| |s.cash j|
    have habs : |s.cash j| = -(s.cash j) := abs_of_neg (by linarith)
    linarith [ha_le_min]
  have hcash_i : (step prec i j s).cash i = s.cash i - amt prec i j s := by
    rw [h3]
    exact fire_cash_i prec s hij hi
  have hcash_j : (step prec i j s).cash j = s.cash j + amt prec i j s := by
    rw [h3]
    exact fire_cash_j prec s hij hj
  refine ⟨by rw [hcash_i]; linarith, by rw [hcash_j]; linarith, ?_, by rw [hcash_i]; linarith⟩
  intro k
  by_cases hki : k = i
  · rw [hki, hcash_i]
    have h1 : |s.cash i - amt prec i j s| < s.cash i := by
      rw [abs_lt]
      constructor
      · linarith
      · linarith
    have h2 : |s.cash i| = s.cash i := abs_of_pos (by linarith)
    linarith
  · by_cases hkj : k = j
    · rw [hkj, hcash_j]
      have h1 : |s.cash j + amt prec i j s| < -(s.cash j) := by
        rw [abs_lt]
        constructor
        · linarith
        · linarith
      have h2 : |s.cash j| = -(s.cash j) := abs_of_neg (by linarith)
      linarith
    · rw [h3, fire_cash_other prec s hki hkj]

theorem innerLoopT_motion (prec : ℕ) {i : ℕ} (js : List ℕ) (s : SettleState)
    (es : List TraceEntry) (hi : i < s.payers.length)
    (hjs : ∀ j ∈ js, j < s.payers.length)
    (hinv : -(unit prec / 2) ≤ s.cash i)
    (hes : ∀ e ∈ es, Motion e) :
    (∀ e ∈ (innerLoopT prec i js (s, es)).2, Motion e) ∧
      -(unit prec / 2) ≤ (innerLoopT prec i js (s, es)).1.cash i := by
  induction js generalizing s es with
  | nil => exact ⟨hes, hinv⟩
  | cons j rest ih =>
    have hj : j < s.payers.length := hjs j (List.mem_cons_self j rest)
    have hmot : Motion ⟨s, i, j, step prec i j s⟩ := by
      intro hne
      obtain ⟨h1, h2, h3, _⟩ := step_motion prec s hi hj hinv hne
      exact ⟨h1, h2, h3⟩
    have hinv1 : -(unit prec / 2) ≤ (step prec i j s).cash i := by
      by_cases hne : step prec i j s = s
      · rw [hne]
        exact hinv
      · exact (step_motion prec s hi hj hinv hne).2.2.2
    have hes1 : ∀ e ∈ es ++ [⟨s, i, j, step prec i j s⟩], Motion e := by
      intro e he
      rcases List.mem_append.mp he with hm | hm
      · exact hes e hm
      · rw [List.mem_singleton.mp hm]
        exact hmot
    have hi1 : i < (step prec i j s).payers.length := by
      rw [step_length]
      exact hi
    have hjs1 : ∀ j' ∈ rest, j' < (step prec i j s).payers.length := fun j' hj' => by
      rw [step_length]
      exact hjs j' (List.mem_cons_of_mem j hj')
    rw [show innerLoopT prec i (j :: rest) (s, es) =
      innerLoopT prec i rest (step prec i j s, es ++ [⟨s, i, j, step prec i j s⟩])
      from rfl]
    exact ih (step prec i j s) (es ++ [⟨s, i, j, step prec i j s⟩]) hi1 hjs1 hinv1 hes1

theorem outerStepT_motion (prec : ℕ) (p : SettleState × List TraceEntry) (i : ℕ)
    (hi : i < p.1.payers.length) (hes : ∀ e ∈ p.2, Motion e) :
    ∀ e ∈ (outerStepT prec p i).2, Motion e := by
  obtain ⟨s, es⟩ := p
  unfold outerStepT
  split_ifs with hg
  · have hpos : unit prec / 2 < s.cash i := (pyround_pos_iff prec (s.cash i)).mp hg
    have hu := unit_pos prec
    have hinv : -(unit prec / 2) ≤ s.cash i := by linarith
    exact (innerLoopT_motion prec _ s es hi (range_reverse_lt _) hinv hes).1
  · exact hes

theorem outerLoopT_motion (prec : ℕ) (is : List ℕ) (p : SettleState × List TraceEntry)
    (his : ∀ i ∈ is, i < p.1.payers.length) (hes : ∀ e ∈ p.2, Motion e) :
    ∀ e ∈ (outerLoopT prec is p).2, Motion e := by
  induction is generalizing p with
  | nil => exact hes
  | cons i rest ih =>
    rw [show outerLoopT prec (i :: rest) p = outerLoopT prec rest (outerStepT prec p i)
      from rfl]
    refine ih _ ?_ (outerStepT_motion prec p i (his i (List.mem_cons_self i rest)) hes)
    intro i' hi'
    rw [show (outerStepT prec p i).1.payers.length = p.1.payers.length from by
      rw [outerStepT_fst, outerStep_length]]
    exact his i' (List.mem_cons_of_mem i hi')

theorem settleTrace_motion (prec : ℕ) (l : List Payer) :
    ∀ e ∈ settleTrace prec l, Motion e := by
  unfold settleTrace
  refine outerLoopT_motion prec _ _ ?_ ?_
  · intro i hi
    exact List.mem_range.mp hi
  · intro e he
    exact absurd he (List.not_mem_nil e)

/-- The instrumented run computes the same final state as the real one. -/
theorem settleTrace_run (prec : ℕ) (l : List Payer) :
    ((outerLoopT prec (List.range (sortPayers l).length)
        (⟨sortPayers l, []⟩, [])).1.instrs,
      (outerLoopT prec (List.range (sortPayers l).length)
        (⟨sortPayers l, []⟩, [])).1.payers) = resolve_expenses prec l := by
  rw [outerLoopT_fst]
  rfl

/-! ### Further small lemmas -/

theorem pyround_zero (prec : ℕ) : pyround prec 0 = 0 :=
  pyround_eq_self prec (isMul_zero prec)

theorem sumCash_isMul (prec : ℕ) (l : List Payer)
    (h : ∀ p ∈ l, isMul prec p.cashflow) : isMul prec (sumCash l) := by
  induction l with
  | nil => exact isMul_zero prec
  | cons a t ih =>
    rw [sumCash_cons]
    exact isMul_add prec (h a (List.mem_cons_self a t))
      (ih (fun p hp => h p (List.mem_cons_of_mem a hp)))

/-! ### Concrete inputs used by the spec's examples and the counterexamples -/

/-- The spec's example scenario (precision 2); `spent` is irrelevant to
the settlement and set to 0. -/
def exampleRecords : List Payer := [⟨"A", 0, 30⟩, ⟨"B", 0, -10⟩, ⟨"C", 0, -20⟩]

/-- Boundary: a single debtor exactly matching a single creditor. -/
def boundaryExact : List Payer := [⟨"A", 0, 15⟩, ⟨"B", 0, -15⟩]

/-- Boundary: already-balanced input. -/
def boundaryZero : List Payer := [⟨"A", 0, 0⟩, ⟨"B", 0, 0⟩]

/-- An imbalanced input (sum = 5, not rounding to zero at precision 2). -/
def cexImb : List Payer := [⟨"A", 0, 10⟩, ⟨"B", 0, -5⟩]

/-- An input with duplicate names. -/
def cexDup : List Payer := [⟨"A", 0, 10⟩, ⟨"A", 0, -10⟩]

/-- Sub-precision dust: 0.004 + 0.004 - 0.008 = 0 exactly, yet at
precision 2 the two positive balances round to 0 (so nobody owes money)
while -0.008 rounds to -0.01 (so C is owed money). -/
def cexDust : List Payer := [⟨"A", 0, 1/250⟩, ⟨"B", 0, 1/250⟩, ⟨"C", 0, -1/125⟩]

/-! ### The claims -/

set_option maxRecDepth 8000 in
unseal Rat.add Rat.sub Rat.mul Rat.inv in
/-- C1 (counterexample): the code performs no validation at all.  On the
imbalanced input `[A: 10, B: -5]` (whose cashflow sum 5 does not round to
zero at precision 2) `resolve_expenses` raises nothing, emits the
transfer `A 5 -> B`, and mutates B's balance to 0 — refuting the claim
that an invalid input produces a `ValidationError` with no transfer
emitted and no balance mutated. -/
theorem C1_counterexample :
    pyround 2 (sumCash cexImb) ≠ 0 ∧
      (resolve_expenses 2 cexImb).1 = [⟨"A", "B", 5⟩] ∧
      (resolve_expenses 2 cexImb).2 = [⟨"A", 0, 5⟩, ⟨"B", 0, 0⟩] := by decide

set_option maxRecDepth 8000 in
unseal Rat.add Rat.sub Rat.mul Rat.inv in
/-- C1 (amended): `resolve_expenses` performs no input validation and
raises no error: the empty input yields no instructions and an empty
list, duplicate names are settled as independent records (here emitting
a self-transfer `A 10 -> A`), and an imbalanced input is processed by
the same greedy loop, emitting a transfer and mutating a balance (a
partial settlement). -/
theorem C1_no_validation :
    resolve_expenses 2 ([] : List Payer) = ([], []) ∧
      (resolve_expenses 2 cexDup).1 = [⟨"A", "A", 10⟩] ∧
      (resolve_expenses 2 cexDup).2 = [⟨"A", 0, 0⟩, ⟨"A", 0, 0⟩] ∧
      (resolve_expenses 2 cexImb).1 = [⟨"A", "B", 5⟩] ∧
      (resolve_expenses 2 cexImb).2 = [⟨"A", 0, 5⟩, ⟨"B", 0, 0⟩] := by decide

set_option maxRecDepth 8000 in
unseal Rat.add Rat.sub Rat.mul Rat.inv in
/-- C2 (counterexample): the input `[A: 0.004, B: 0.004, C: -0.008]`
satisfies every stated precondition at precision 2 (non-empty, unique
names, cashflows sum to exactly 0, which rounds to 0), yet after
`resolve_expenses` the record C still holds -0.008, which rounds to
-0.01, not 0: the two debtors round to zero so no transfer is ever
attempted. -/
theorem C2_counterexample :
    cexDust ≠ [] ∧ (cexDust.map Payer.name).Nodup ∧
      pyround 2 (sumCash cexDust) = 0 ∧
      (⟨"C", 0, -1/125⟩ : Payer) ∈ (resolve_expenses 2 cexDust).2 ∧
      pyround 2 (-1/125 : ℚ) ≠ 0 := by decide

/-- C2 (amended): under the stated preconditions strengthened by the
requirement that every `netBalance` is an exact multiple of the monetary
unit `10^(-precision)`, every final `netBalance` rounds to zero at the
configured precision (indeed is exactly zero, by
`settle_balances_zero`). -/
theorem C2_settles_to_zero (prec : ℕ) (l : List Payer) (hne : l ≠ [])
    (hnd : (l.map Payer.name).Nodup)
    (hmul : ∀ p ∈ l, isMul prec p.cashflow)
    (hsum : pyround prec (sumCash l) = 0) :
    ∀ p ∈ (resolve_expenses prec l).2, pyround prec p.cashflow = 0 := by
  have hs0 : sumCash l = 0 := by
    rw [← pyround_eq_self prec (sumCash_isMul prec l hmul)]
    exact hsum
  intro p hp
  rw [settle_balances_zero prec l hmul hs0 p hp]
  exact pyround_zero prec

set_option maxRecDepth 8000 in
unseal Rat.add Rat.sub Rat.mul Rat.inv in
theorem C2_witness :
    pyround 2 (((resolve_expenses 2 exampleRecords).2.getD 0 dfltPayer).cashflow) = 0 :=
  C2_settles_to_zero 2 exampleRecords (by decide) (by decide)
    (by
      intro p hp
      simp only [exampleRecords, List.mem_cons, List.not_mem_nil, or_false] at hp
      rcases hp with rfl | rfl | rfl
      · exact ⟨3000, by show (30 : ℚ) = 3000 / 10 ^ 2; norm_num⟩
      · exact ⟨-1000, by show (-10 : ℚ) = -1000 / 10 ^ 2; norm_num⟩
      · exact ⟨-2000, by show (-20 : ℚ) = -2000 / 10 ^ 2; norm_num⟩)
    (by decide) _ (by decide)

set_option maxRecDepth 8000 in
unseal Rat.add Rat.sub Rat.mul Rat.inv in
/-- C3 (counterexample): on the same dust input, which satisfies every
stated precondition at precision 2, the creditor C (rounded balance
-0.01 < 0) receives a total of 0, while its original `|netBalance|`
rounded to the precision is 0.01 ≠ 0 — the claimed conservation fails. -/
theorem C3_counterexample :
    cexDust ≠ [] ∧ (cexDust.map Payer.name).Nodup ∧
      pyround 2 (sumCash cexDust) = 0 ∧
      (⟨"C", 0, -1/125⟩ : Payer) ∈ cexDust ∧
      Payer.is_owed_money 2 ⟨"C", 0, -1/125⟩ ∧
      recvSum (resolve_expenses 2 cexDust).1 "C" = 0 ∧
      pyround 2 |(-1/125 : ℚ)| = 1/100 ∧ (1/100 : ℚ) ≠ 0 := by decide

/-- C3 (amended): under the stated preconditions strengthened by the
exact-multiples requirement, every debtor (rounded cashflow positive)
sends in total exactly its original `|netBalance|` rounded to the
precision, and every creditor (rounded cashflow negative) receives in
total exactly its original `|netBalance|` rounded to the precision. -/
theorem C3_conservation (prec : ℕ) (l : List Payer) (hne : l ≠ [])
    (hnd : (l.map Payer.name).Nodup)
    (hmul : ∀ p ∈ l, isMul prec p.cashflow)
    (hsum : pyround prec (sumCash l) = 0) :
    ∀ p ∈ l,
      (p.owes_money prec →
        sentSum (resolve_expenses prec l).1 p.name = pyround prec |p.cashflow|) ∧
      (p.is_owed_money prec →
        recvSum (resolve_expenses prec l).1 p.name = pyround prec |p.cashflow|) := by
  have hs0 : sumCash l = 0 := by
    rw [← pyround_eq_self prec (sumCash_isMul prec l hmul)]
    exact hsum
  intro p hp
  obtain ⟨hsent, hrecv⟩ := settle_conservation prec l hnd hmul hs0 p hp
  have habs : pyround prec |p.cashflow| = |p.cashflow| :=
    pyround_eq_self prec (isMul_abs prec (hmul p hp))
  have hself : pyround prec p.cashflow = p.cashflow :=
    pyround_eq_self prec (hmul p hp)
  constructor
  · intro howes
    have hpos : 0 < p.cashflow := by
      have h1 : 0 < pyround prec p.cashflow := howes
      rw [hself] at h1
      exact h1
    rw [hsent, habs, max_eq_left (le_of_lt hpos), abs_of_pos hpos]
  · intro howed
    have hneg : p.cashflow < 0 := by
      have h1 : pyround prec p.cashflow < 0 := howed
      rw [hself] at h1
      exact h1
    rw [hrecv, habs, max_eq_left (by linarith : (0:ℚ) ≤ -p.cashflow), abs_of_neg hneg]

set_option maxRecDepth 8000 in
unseal Rat.add Rat.sub Rat.mul Rat.inv in
theorem C3_witness :
    sentSum (resolve_expenses 2 exampleRecords).1 "A" = pyround 2 |(30 : ℚ)| :=
  ((C3_conservation 2 exampleRecords (by decide) (by decide)
    (by
      intro p hp
      simp only [exampleRecords, List.mem_cons, List.not_mem_nil, or_false] at hp
      rcases hp with rfl | rfl | rfl
      · exact ⟨3000, by show (30 : ℚ) = 3000 / 10 ^ 2; norm_num⟩
      · exact ⟨-1000, by show (-10 : ℚ) = -1000 / 10 ^ 2; norm_num⟩
      · exact ⟨-2000, by show (-20 : ℚ) = -2000 / 10 ^ 2; norm_num⟩)
    (by decide)) ⟨"A", 0, 30⟩ (by decide)).1 (by decide)

set_option maxRecDepth 8000 in
unseal Rat.add Rat.sub Rat.mul Rat.inv in
/-- C4: the three concrete scenarios of the spec at precision 2: the
example produces exactly `[A 20 -> C, A 10 -> B]` with all final
balances 0; the exactly-matching pair produces one instruction
`A 15 -> B` with both final balances 0; the already-balanced input
produces no instructions and no error. -/
theorem C4_examples :
    resolve_expenses 2 exampleRecords =
        ([⟨"A", "C", 20⟩, ⟨"A", "B", 10⟩],
          [⟨"A", 0, 0⟩, ⟨"B", 0, 0⟩, ⟨"C", 0, 0⟩]) ∧
      resolve_expenses 2 boundaryExact =
        ([⟨"A", "B", 15⟩], [⟨"A", 0, 0⟩, ⟨"B", 0, 0⟩]) ∧
      resolve_expenses 2 boundaryZero = ([], [⟨"A", 0, 0⟩, ⟨"B", 0, 0⟩]) := by decide

/-- C5: no emitted `TransferInstruction` has `amount = 0`, and whenever
the rounded `min(|payer.cashflow|, |recipient.cashflow|)` is zero the
pair is skipped: the step leaves the whole state (balances and emitted
instructions) unchanged. -/
theorem C5_no_dust :
    (∀ (prec : ℕ) (l : List Payer),
      ∀ ins ∈ (resolve_expenses prec l).1, ins.amount ≠ 0) ∧
    (∀ (prec i j : ℕ) (s : SettleState),
      pyround prec (min |(s.payers.getD i dfltPayer).cashflow|
        |(s.payers.getD j dfltPayer).cashflow|) = 0 →
      step prec i j s = s) :=
  ⟨resolve_no_dust, fun prec i j s h => step_skip_zero prec i j s h⟩

set_option maxRecDepth 8000 in
unseal Rat.add Rat.sub Rat.mul Rat.inv in
theorem C5_witness :
    ((⟨"A", "C", 20⟩ : Instr).amount ≠ 0) ∧
      step 2 0 1 ⟨boundaryZero, []⟩ = ⟨boundaryZero, []⟩ :=
  ⟨C5_no_dust.1 2 exampleRecords ⟨"A", "C", 20⟩ (by decide),
    C5_no_dust.2 2 0 1 ⟨boundaryZero, []⟩ (by decide)⟩

/-- C6: `resolve_expenses` first sorts stably by cashflow descending
(the sorted list is a permutation of the input, is pairwise descending,
and input pairs with equal cashflow keep their relative order), then
runs the debtor-major double loop over that sorted order with the inner
loop walking the reversed index order; a pair is a no-op unless the
visited recipient's current rounded cashflow is strictly negative, an
outer index is a no-op unless its current rounded cashflow is strictly
positive, and a qualifying outer index runs the inner loop over the full
reversed range. -/
theorem C6_order (prec : ℕ) (l : List Payer) :
    (sortPayers l).Perm l ∧
    (sortPayers l).Pairwise byDesc ∧
    (∀ a b : Payer, a.cashflow = b.cashflow → [a, b].Sublist l →
      [a, b].Sublist (sortPayers l)) ∧
    resolve_expenses prec l =
      ((outerLoop prec (List.range (sortPayers l).length) ⟨sortPayers l, []⟩).instrs,
        (outerLoop prec (List.range (sortPayers l).length) ⟨sortPayers l, []⟩).payers) ∧
    (∀ (i j : ℕ) (s : SettleState),
      ¬ (s.payers.getD j dfltPayer).is_owed_money prec → step prec i j s = s) ∧
    (∀ (s : SettleState) (i : ℕ),
      ¬ (s.payers.getD i dfltPayer).owes_money prec → outerStep prec s i = s) ∧
    (∀ (s : SettleState) (i : ℕ),
      (s.payers.getD i dfltPayer).owes_money prec →
      outerStep prec s i = innerLoop prec i (List.range s.payers.length).reverse s) :=
  ⟨sortPayers_perm l, sortPayers_sorted l,
    fun _ _ hab h => sortPayers_stable hab h, rfl,
    fun i j s h => step_skip_not_creditor prec i j s h,
    fun s i h => outerStep_skip_not_debtor prec s i h,
    fun s i h => outerStep_run_debtor prec s i h⟩

set_option maxRecDepth 8000 in
unseal Rat.add Rat.sub Rat.mul Rat.inv in
theorem C6_witness :
    ([⟨"A", 0, 0⟩, ⟨"B", 0, 0⟩] : List Payer).Sublist (sortPayers boundaryZero) ∧
      step 2 0 0 ⟨boundaryZero, []⟩ = ⟨boundaryZero, []⟩ :=
  ⟨(C6_order 2 boundaryZero).2.2.1 ⟨"A", 0, 0⟩ ⟨"B", 0, 0⟩ rfl (by decide),
    (C6_order 2 boundaryZero).2.2.2.2.1 0 0 ⟨boundaryZero, []⟩ (by decide)⟩

/-- C7: along the instrumented settlement run (whose final state is
exactly `resolve_expenses`'s result), every applied transfer strictly
decreases the payer's cashflow, strictly increases the recipient's
cashflow, and moves no record's cashflow further from zero. -/
theorem C7_motion (prec : ℕ) (l : List Payer) :
    (∀ e ∈ settleTrace prec l, e.after ≠ e.before →
      (e.after.cash e.payer < e.before.cash e.payer ∧
        e.before.cash e.recip < e.after.cash e.recip ∧
        ∀ k, |e.after.cash k| ≤ |e.before.cash k|)) ∧
    ((outerLoopT prec (List.range (sortPayers l).length)
        (⟨sortPayers l, []⟩, [])).1.instrs,
      (outerLoopT prec (List.range (sortPayers l).length)
        (⟨sortPayers l, []⟩, [])).1.payers) = resolve_expenses prec l :=
  ⟨fun e he hne => settleTrace_motion prec l e he hne, settleTrace_run prec l⟩

set_option maxRecDepth 8000 in
unseal Rat.add Rat.sub Rat.mul Rat.inv in
theorem C7_witness :
    ((settleTrace 2 exampleRecords).getD 0 ⟨⟨[], []⟩, 0, 0, ⟨[], []⟩⟩).after.cash
        ((settleTrace 2 exampleRecords).getD 0 ⟨⟨[], []⟩, 0, 0, ⟨[], []⟩⟩).payer <
      ((settleTrace 2 exampleRecords).getD 0 ⟨⟨[], []⟩, 0, 0, ⟨[], []⟩⟩).before.cash
        ((settleTrace 2 exampleRecords).getD 0 ⟨⟨[], []⟩, 0, 0, ⟨[], []⟩⟩).payer :=
  ((C7_motion 2 exampleRecords).1 _ (by decide) (by decide)).1

/-- C8: settlement is a pure function of its input: two runs on equal
precisions and equal record lists produce identical instruction
sequences and identical final balance lists. -/
theorem C8_deterministic (prec1 prec2 : ℕ) (l1 l2 : List Payer)
    (hp : prec1 = prec2) (hl : l1 = l2) :
    (resolve_expenses prec1 l1).1 = (resolve_expenses prec2 l2).1 ∧
      (resolve_expenses prec1 l1).2 = (resolve_expenses prec2 l2).2 := by
  subst hp
  subst hl
  exact ⟨rfl, rfl⟩

theorem C8_witness :
    (resolve_expenses 2 exampleRecords).1 = (resolve_expenses 2 exampleRecords).1 ∧
      (resolve_expenses 2 exampleRecords).2 = (resolve_expenses 2 exampleRecords).2 :=
  C8_deterministic 2 2 exampleRecords exampleRecords rfl rfl

/-- C9: each executed exchange decreases the payer's balance by exactly
the amount it increases the recipient's balance, so the sum of all
cashflows is invariant: across any single in-range step and across the
whole of `resolve_expenses`. -/
theorem C9_sum_conserved (prec : ℕ) (l : List Payer) :
    sumCash (resolve_expenses prec l).2 = sumCash l ∧
    (∀ (i j : ℕ) (s : SettleState), i < s.payers.length → j < s.payers.length →
      sumCash (step prec i j s).payers = sumCash s.payers) :=
  ⟨resolve_sum prec l, fun _ _ s hi hj => step_sum prec s hi hj⟩

set_option maxRecDepth 8000 in
unseal Rat.add Rat.sub Rat.mul Rat.inv in
theorem C9_witness :
    sumCash (step 2 0 2 ⟨exampleRecords, []⟩).payers =
      sumCash (⟨exampleRecords, []⟩ : SettleState).payers :=
  (C9_sum_conserved 2 exampleRecords).2 0 2 ⟨exampleRecords, []⟩ (by decide) (by decide)

/-- C10: settlement mutates only cashflows: the final list carries
exactly the input's (name, spent) pairs (as a permutation — positionwise
it is the sorted order), and no record is added or removed. -/
theorem C10_frame (prec : ℕ) (l : List Payer) :
    ((resolve_expenses prec l).2.map proj).Perm (l.map proj) ∧
      (resolve_expenses prec l).2.map proj = (sortPayers l).map proj ∧
      (resolve_expenses prec l).2.length = l.length := by
  have h1 := resolve_map_proj prec l
  refine ⟨?_, h1, ?_⟩
  · rw [h1]
    exact (sortPayers_perm l).map proj
  · have h2 : (resolve_expenses prec l).2.length = (sortPayers l).length := by
      have h3 := congrArg List.length h1
      simpa using h3
    have h4 := (sortPayers_perm l).length_eq
    omega

